import Mathlib

/-!
Verification development for the `kvs` log-structured key-value store
(`src/kvs/lib.rs` and its `kvio` submodules).

The filesystem is modelled as an association list from log-file version
numbers to file contents.  File contents are modelled as `List Char`
(one entry per Unicode scalar; byte offsets of the Rust code become
character offsets, a consistent change of units since every position the
store records and later seeks to is produced by the same writer).
`serde_json` serialization of `Command` is embedded by an executable
encoder producing exactly serde_json's output for this externally tagged
enum, and an executable parser for that output; `HashMap` is embedded as
an association list (its unspecified iteration order becomes list order);
`BinaryHeap` is embedded by Rust std's exact array layout (`rebuild` /
`sift_down`, i.e. Floyd heapify) because `KvStore::open` iterates the
heap's backing array directly, whose order is *not* part of the
documented heap contract, while `peek` is embedded by its documented
contract (the greatest element).

`KvsReader` (`src/kvs/kvio/reader.rs`) keeps a `pos` field that is set
only by `new` and `seek`; its `Read` impl does not advance it, while the
underlying stream position does advance with every read.  Two models of
the store are developed.  The base `KvStore` abstracts the reader state
away: it is adequate exactly for runs in which no `get` precedes a
compaction, because there every reader's tracked `pos` and stream
position coincide whenever `compact`'s conditional seek consults them
(readers are created fresh at 0/0, every seek sets both together, and
distinct live entries of one version sit at distinct offsets).  The
refined `KvStoreR` carries each version's `(tracked, stream)` pair and
embeds `get`'s seek-and-read and `compact`'s skip-seek check
(`lib.rs:261`) literally, exposing their interaction.
-/

set_option maxHeartbeats 1000000
set_option maxRecDepth 8000

deriving instance DecidableEq for Except

namespace Kvs

/-- `enum Command` of `src/kvs/lib.rs`: `Set { key, value }` / `Remove { key }`. -/
inductive Command where
  | set (key value : String)
  | remove (key : String)
deriving DecidableEq

/-- `struct CommandPosition { ver, pos, len }` of `src/kvs/lib.rs`. -/
structure CommandPosition where
  ver : Nat
  pos : Nat
  len : Nat
deriving DecidableEq

/-- `enum KvsError` of `src/kvs/util/errors.rs`.  Real I/O failures do not
arise in the idealized filesystem model, but the constructor is kept for
the branches of the code that produce it. -/
inductive KvsError where
  | ioFailure
  | serde
  | keyNotFound (msg : String)
  | unexpectedCommandType (msg : String)
deriving DecidableEq

/-! ### The record codec

serde_json encodes `Command::Set { key, value }` as
`\x7b"Set":\x7b"key":<k>,"value":<v>\x7d\x7d` and `Command::Remove { key }` as
`\x7b"Remove":\x7b"key":<k>\x7d\x7d`, where `<k>`, `<v>` are JSON strings with
serde_json's escaping (`"`->`\"`, `\`->`\\`, the five short control escapes,
and `\u00XX` with lowercase hex for the remaining chars below 0x20). -/

/-- Lowercase hex digit character, as serde_json emits in `\u00XX` escapes. -/
def hexDigit (n : Nat) : Char :=
  if n < 10 then Char.ofNat (48 + n) else Char.ofNat (87 + n)

/-- Value of a lowercase hex digit character. -/
def hexVal (c : Char) : Option Nat :=
  if 48 ≤ c.toNat ∧ c.toNat ≤ 57 then some (c.toNat - 48)
  else if 97 ≤ c.toNat ∧ c.toNat ≤ 102 then some (c.toNat - 87)
  else none

/-- serde_json's escaping of one character inside a JSON string. -/
def escapeChar (c : Char) : List Char :=
  if c = '\x22' then ['\x5c', '\x22']
  else if c = '\x5c' then ['\x5c', '\x5c']
  else if c = '\x08' then ['\x5c', 'b']
  else if c = '\x09' then ['\x5c', 't']
  else if c = '\x0a' then ['\x5c', 'n']
  else if c = '\x0c' then ['\x5c', 'f']
  else if c = '\x0d' then ['\x5c', 'r']
  else if c.toNat < 32 then
    ['\x5c', 'u', '0', '0', hexDigit (c.toNat / 16), hexDigit (c.toNat % 16)]
  else [c]

/-- serde_json's escaping of a whole string (without the delimiting quotes). -/
def escapeStr (s : List Char) : List Char := (s.map escapeChar).flatten

/-- Decoder for the body of a JSON string: consumes up to and including the
closing quote, undoing `escapeStr`.  Covers exactly the escapes the encoder
emits (sufficient: every record the store decodes was written by the
encoder). -/
def parseStrBody : List Char → Option (List Char × List Char)
  | [] => none
  | c :: rest =>
    if c = '\x22' then some ([], rest)
    else if c = '\x5c' then
      match rest with
      | [] => none
      | e :: rest₂ =>
        if e = '\x22' then (parseStrBody rest₂).map fun p => ('\x22' :: p.1, p.2)
        else if e = '\x5c' then (parseStrBody rest₂).map fun p => ('\x5c' :: p.1, p.2)
        else if e = 'b' then (parseStrBody rest₂).map fun p => ('\x08' :: p.1, p.2)
        else if e = 't' then (parseStrBody rest₂).map fun p => ('\x09' :: p.1, p.2)
        else if e = 'n' then (parseStrBody rest₂).map fun p => ('\x0a' :: p.1, p.2)
        else if e = 'f' then (parseStrBody rest₂).map fun p => ('\x0c' :: p.1, p.2)
        else if e = 'r' then (parseStrBody rest₂).map fun p => ('\x0d' :: p.1, p.2)
        else if e = 'u' then
          match rest₂ with
          | d₁ :: d₂ :: d₃ :: d₄ :: rest₃ =>
            match hexVal d₁, hexVal d₂, hexVal d₃, hexVal d₄ with
            | some a, some b, some c', some d =>
              (parseStrBody rest₃).map fun p =>
                (Char.ofNat (((a * 16 + b) * 16 + c') * 16 + d) :: p.1, p.2)
            | _, _, _, _ => none
          | _ => none
        else none
    else (parseStrBody rest).map fun p => (c :: p.1, p.2)

/-- Literal `\x7b"Set":\x7b"key":"`. -/
def preSet : List Char :=
  ['\x7b', '\x22', 'S', 'e', 't', '\x22', ':', '\x7b', '\x22', 'k', 'e', 'y', '\x22', ':', '\x22']

/-- Literal `,"value":"`. -/
def midSet : List Char :=
  [',', '\x22', 'v', 'a', 'l', 'u', 'e', '\x22', ':', '\x22']

/-- Literal `\x7d\x7d`. -/
def endBraces : List Char := ['\x7d', '\x7d']

/-- Literal `\x7b"Remove":\x7b"key":"`. -/
def preRemove : List Char :=
  ['\x7b', '\x22', 'R', 'e', 'm', 'o', 'v', 'e', '\x22', ':', '\x7b', '\x22', 'k', 'e', 'y',
   '\x22', ':', '\x22']

/-- serde_json encoding of a `Command` (`serde_json::to_writer`). -/
def encode : Command → List Char
  | .set k v =>
    preSet ++ escapeStr k.data ++ '\x22' :: (midSet ++ escapeStr v.data ++ '\x22' :: endBraces)
  | .remove k => preRemove ++ escapeStr k.data ++ '\x22' :: endBraces

/-- Drop an expected literal prefix. -/
def dropPre : List Char → List Char → Option (List Char)
  | [], s => some s
  | _ :: _, [] => none
  | p :: ps, c :: cs => if c = p then dropPre ps cs else none

/-- Decode one record from the head of a stream, returning the remainder:
the model of deserializing one `Command` from a byte position
(`serde_json::Deserializer::into_iter` / `from_reader`). -/
def parseRec (s : List Char) : Option (Command × List Char) :=
  match dropPre preSet s with
  | some s₁ =>
    match parseStrBody s₁ with
    | some (k, s₂) =>
      match dropPre midSet s₂ with
      | some s₃ =>
        match parseStrBody s₃ with
        | some (v, s₄) =>
          match dropPre endBraces s₄ with
          | some s₅ => some (.set (String.mk k) (String.mk v), s₅)
          | none => none
        | none => none
      | none => none
    | none => none
  | none =>
    match dropPre preRemove s with
    | some s₁ =>
      match parseStrBody s₁ with
      | some (k, s₂) =>
        match dropPre endBraces s₂ with
        | some s₃ => some (.remove (String.mk k), s₃)
        | none => none
      | none => none
    | none => none

/-- Decode a stream that must consist of exactly one record
(`serde_json::from_reader` of a `take(len)` reader, which demands the
stream end right after the value). -/
def decodeFull (s : List Char) : Option Command :=
  match parseRec s with
  | some (c, []) => some c
  | _ => none

/-! ### Codec lemmas -/

theorem dropPre_append (p s : List Char) : dropPre p (p ++ s) = some s := by
  induction p with
  | nil => rfl
  | cons c cs ih => simp [dropPre, ih]

theorem dropPre_length :
    ∀ p s r : List Char, dropPre p s = some r → p.length + r.length = s.length := by
  intro p
  induction p with
  | nil => intro s r h; simp [dropPre] at h; simp [h]
  | cons c cs ih =>
    intro s r h
    match s with
    | [] => simp [dropPre] at h
    | d :: ds =>
      simp only [dropPre] at h
      split at h
      · have := ih ds r h
        simp [List.length_cons]
        omega
      · exact absurd h (by simp)

theorem hexVal_hexDigit : ∀ n : Nat, n < 16 → hexVal (hexDigit n) = some n := by decide

theorem parseStrBody_nil : parseStrBody [] = none := by
  rw [parseStrBody.eq_def]

theorem parseStrBody_quote (t : List Char) : parseStrBody ('\x22' :: t) = some ([], t) := by
  conv_lhs => rw [parseStrBody.eq_def]
  simp

theorem parseStrBody_esc (e r : Char) (t : List Char)
    (h : [e, r] ∈ [['\x22', '\x22'], ['\x5c', '\x5c'], ['b', '\x08'], ['t', '\x09'],
      ['n', '\x0a'], ['f', '\x0c'], ['r', '\x0d']]) :
    parseStrBody ('\x5c' :: e :: t) = (parseStrBody t).map fun p => (r :: p.1, p.2) := by
  conv_lhs => rw [parseStrBody.eq_def]
  fin_cases h <;> simp

theorem parseStrBody_unicode (d₁ d₂ d₃ d₄ : Char) (t : List Char) (a b c' d : Nat)
    (h₁ : hexVal d₁ = some a) (h₂ : hexVal d₂ = some b)
    (h₃ : hexVal d₃ = some c') (h₄ : hexVal d₄ = some d) :
    parseStrBody ('\x5c' :: 'u' :: d₁ :: d₂ :: d₃ :: d₄ :: t) =
      (parseStrBody t).map fun p =>
        (Char.ofNat (((a * 16 + b) * 16 + c') * 16 + d) :: p.1, p.2) := by
  conv_lhs => rw [parseStrBody.eq_def]
  simp [h₁, h₂, h₃, h₄]

theorem parseStrBody_plain (c : Char) (t : List Char) (h₁ : ¬ c = '\x22')
    (h₂ : ¬ c = '\x5c') :
    parseStrBody (c :: t) = (parseStrBody t).map fun p => (c :: p.1, p.2) := by
  conv_lhs => rw [parseStrBody.eq_def]
  simp [h₁, h₂]

theorem parseStrBody_bs_nil : parseStrBody ['\x5c'] = none := by
  rw [parseStrBody.eq_def]
  simp

theorem parseStrBody_bs_bad (e : Char) (t : List Char) (h₁ : ¬ e = '\x22')
    (h₂ : ¬ e = '\x5c') (h₃ : ¬ e = 'b') (h₄ : ¬ e = 't') (h₅ : ¬ e = 'n')
    (h₆ : ¬ e = 'f') (h₇ : ¬ e = 'r') (h₈ : ¬ e = 'u') :
    parseStrBody ('\x5c' :: e :: t) = none := by
  rw [parseStrBody.eq_def]
  simp [h₁, h₂, h₃, h₄, h₅, h₆, h₇, h₈]

theorem parseStrBody_u_short (t : List Char)
    (h : ∀ d₁ d₂ d₃ d₄ : Char, ∀ t' : List Char, t = d₁ :: d₂ :: d₃ :: d₄ :: t' → False) :
    parseStrBody ('\x5c' :: 'u' :: t) = none := by
  rw [parseStrBody.eq_def]
  simp only
  match t with
  | [] => simp
  | [d₁] => simp
  | [d₁, d₂] => simp
  | [d₁, d₂, d₃] => simp
  | d₁ :: d₂ :: d₃ :: d₄ :: t' => exact (h d₁ d₂ d₃ d₄ t' rfl).elim

theorem parseStrBody_u_badhex (d₁ d₂ d₃ d₄ : Char) (t : List Char)
    (h : ∀ a b c' d : Nat, hexVal d₁ = some a → hexVal d₂ = some b → hexVal d₃ = some c' →
      hexVal d₄ = some d → False) :
    parseStrBody ('\x5c' :: 'u' :: d₁ :: d₂ :: d₃ :: d₄ :: t) = none := by
  rw [parseStrBody.eq_def]
  simp only
  cases e₁ : hexVal d₁ with
  | none => simp
  | some a =>
    cases e₂ : hexVal d₂ with
    | none => simp
    | some b =>
      cases e₃ : hexVal d₃ with
      | none => simp
      | some c' =>
        cases e₄ : hexVal d₄ with
        | none => simp
        | some d => exact (h a b c' d e₁ e₂ e₃ e₄).elim

theorem map_cons_len_aux {t : List Char} {ch : Char} {k r : List Char}
    (h : (parseStrBody t).map (fun p => (ch :: p.1, p.2)) = some (k, r))
    (ih : ∀ k r, parseStrBody t = some (k, r) → r.length < t.length) :
    r.length < t.length := by
  obtain ⟨⟨k', r'⟩, hp, he⟩ := Option.map_eq_some'.mp h
  obtain ⟨-, rfl⟩ : ch :: k' = k ∧ r' = r := by simpa using he
  exact ih _ _ hp

theorem parseStrBody_length (s : List Char) :
    ∀ k r, parseStrBody s = some (k, r) → r.length < s.length := by
  induction s using parseStrBody.induct with
  | case1 => intro k r h; rw [parseStrBody_nil] at h; cases h
  | case2 rest₂ =>
    intro k r h
    rw [parseStrBody_quote] at h
    obtain ⟨rfl, rfl⟩ : [] = k ∧ rest₂ = r := by simpa using h
    simp
  | case3 h₁ => intro k r h; rw [parseStrBody_bs_nil] at h; cases h
  | case4 rest₂ h₁ ih =>
    intro k r h
    rw [parseStrBody_esc '\x22' '\x22' _ (by simp)] at h
    have := map_cons_len_aux h ih
    simp only [List.length_cons]; omega
  | case5 rest₂ h₁ h₂ ih =>
    intro k r h
    rw [parseStrBody_esc '\x5c' '\x5c' _ (by simp)] at h
    have := map_cons_len_aux h ih
    simp only [List.length_cons]; omega
  | case6 rest₂ h₁ h₂ h₃ ih =>
    intro k r h
    rw [parseStrBody_esc 'b' '\x08' _ (by simp)] at h
    have := map_cons_len_aux h ih
    simp only [List.length_cons]; omega
  | case7 rest₂ h₁ h₂ h₃ h₄ ih =>
    intro k r h
    rw [parseStrBody_esc 't' '\x09' _ (by simp)] at h
    have := map_cons_len_aux h ih
    simp only [List.length_cons]; omega
  | case8 rest₂ h₁ h₂ h₃ h₄ h₅ ih =>
    intro k r h
    rw [parseStrBody_esc 'n' '\x0a' _ (by simp)] at h
    have := map_cons_len_aux h ih
    simp only [List.length_cons]; omega
  | case9 rest₂ h₁ h₂ h₃ h₄ h₅ h₆ ih =>
    intro k r h
    rw [parseStrBody_esc 'f' '\x0c' _ (by simp)] at h
    have := map_cons_len_aux h ih
    simp only [List.length_cons]; omega
  | case10 rest₂ h₁ h₂ h₃ h₄ h₅ h₆ h₇ ih =>
    intro k r h
    rw [parseStrBody_esc 'r' '\x0d' _ (by simp)] at h
    have := map_cons_len_aux h ih
    simp only [List.length_cons]; omega
  | case11 d₁ d₂ d₃ d₄ rest₃ a b c' d e₄ e₃ e₂ e₁ h₁ h₂ h₃ h₄ h₅ h₆ h₇ h₈ ih =>
    intro k r h
    rw [parseStrBody_unicode _ _ _ _ _ _ _ _ _ e₁ e₂ e₃ e₄] at h
    have := map_cons_len_aux h ih
    simp only [List.length_cons]; omega
  | case12 d₁ d₂ d₃ d₄ rest₃ hfail h₁ h₂ h₃ h₄ h₅ h₆ h₇ h₈ =>
    intro k r h
    rw [parseStrBody_u_badhex _ _ _ _ _ hfail] at h; cases h
  | case13 rest₂ hshape h₁ h₂ h₃ h₄ h₅ h₆ h₇ h₈ =>
    intro k r h
    rw [parseStrBody_u_short _ hshape] at h; cases h
  | case14 e rest₂ h₁ h₂ h₃ h₄ h₅ h₆ h₇ h₈ h₉ =>
    intro k r h
    rw [parseStrBody_bs_bad e _ h₁ h₂ h₃ h₄ h₅ h₆ h₇ h₈] at h; cases h
  | case15 e rest₂ h₁ h₂ ih =>
    intro k r h
    rw [parseStrBody_plain e _ h₁ h₂] at h
    have := map_cons_len_aux h ih
    simp only [List.length_cons]; omega

theorem parseStrBody_escapeChar (c : Char) (t : List Char) :
    parseStrBody (escapeChar c ++ t) = (parseStrBody t).map fun p => (c :: p.1, p.2) := by
  by_cases h₁ : c = '\x22'
  · subst h₁; simp only [escapeChar, if_pos rfl, List.cons_append, List.nil_append]
    exact parseStrBody_esc _ _ _ (by simp)
  by_cases h₂ : c = '\x5c'
  · subst h₂
    simp only [escapeChar, if_neg h₁, if_pos rfl, List.cons_append, List.nil_append]
    exact parseStrBody_esc _ _ _ (by simp)
  by_cases h₃ : c = '\x08'
  · subst h₃
    simp only [escapeChar, if_neg h₁, if_neg h₂, if_pos rfl, List.cons_append, List.nil_append]
    exact parseStrBody_esc _ _ _ (by simp)
  by_cases h₄ : c = '\x09'
  · subst h₄
    simp only [escapeChar, if_neg h₁, if_neg h₂, if_neg h₃, if_pos rfl, List.cons_append,
      List.nil_append]
    exact parseStrBody_esc _ _ _ (by simp)
  by_cases h₅ : c = '\x0a'
  · subst h₅
    simp only [escapeChar, if_neg h₁, if_neg h₂, if_neg h₃, if_neg h₄, if_pos rfl,
      List.cons_append, List.nil_append]
    exact parseStrBody_esc _ _ _ (by simp)
  by_cases h₆ : c = '\x0c'
  · subst h₆
    simp only [escapeChar, if_neg h₁, if_neg h₂, if_neg h₃, if_neg h₄, if_neg h₅, if_pos rfl,
      List.cons_append, List.nil_append]
    exact parseStrBody_esc _ _ _ (by simp)
  by_cases h₇ : c = '\x0d'
  · subst h₇
    simp only [escapeChar, if_neg h₁, if_neg h₂, if_neg h₃, if_neg h₄, if_neg h₅, if_neg h₆,
      if_pos rfl, List.cons_append, List.nil_append]
    exact parseStrBody_esc _ _ _ (by simp)
  by_cases h₈ : c.toNat < 32
  · have hhi : c.toNat / 16 < 16 := by omega
    have hlo : c.toNat % 16 < 16 := Nat.mod_lt _ (by omega)
    have hdm : 16 * (c.toNat / 16) + c.toNat % 16 = c.toNat := Nat.div_add_mod _ 16
    simp only [escapeChar, if_neg h₁, if_neg h₂, if_neg h₃, if_neg h₄, if_neg h₅, if_neg h₆,
      if_neg h₇, if_pos h₈, List.cons_append, List.nil_append]
    rw [parseStrBody_unicode _ _ _ _ _ 0 0 _ _ (by simp [hexVal]) (by simp [hexVal])
      (hexVal_hexDigit _ hhi) (hexVal_hexDigit _ hlo)]
    have hval : ((0 * 16 + 0) * 16 + c.toNat / 16) * 16 + c.toNat % 16 = c.toNat := by omega
    rw [hval, Char.ofNat_toNat]
  · simp only [escapeChar, if_neg h₁, if_neg h₂, if_neg h₃, if_neg h₄, if_neg h₅, if_neg h₆,
      if_neg h₇, if_neg h₈, List.cons_append, List.nil_append]
    exact parseStrBody_plain _ _ h₁ h₂

theorem parseStrBody_escapeStr (s : List Char) :
    ∀ rest, parseStrBody (escapeStr s ++ '\x22' :: rest) = some (s, rest) := by
  induction s with
  | nil => intro rest; simp [escapeStr, parseStrBody_quote]
  | cons c cs ih =>
    intro rest
    have h : escapeStr (c :: cs) = escapeChar c ++ escapeStr cs := by
      simp [escapeStr]
    rw [h, List.append_assoc, parseStrBody_escapeChar, ih]
    rfl

theorem parseRec_encode (c : Command) (rest : List Char) :
    parseRec (encode c ++ rest) = some (c, rest) := by
  cases c with
  | set k v =>
    unfold parseRec
    rw [show encode (.set k v) ++ rest =
        preSet ++ (escapeStr k.data ++ '\x22' ::
          (midSet ++ (escapeStr v.data ++ '\x22' :: (endBraces ++ rest)))) by
      simp [encode]]
    rw [dropPre_append]
    dsimp only
    rw [parseStrBody_escapeStr]
    dsimp only
    rw [dropPre_append]
    dsimp only
    rw [parseStrBody_escapeStr]
    dsimp only
    rw [dropPre_append]
  | remove k =>
    unfold parseRec
    have hnone : dropPre preSet (encode (.remove k) ++ rest) = none := by
      simp [encode, preRemove, preSet, dropPre]
    rw [hnone]
    dsimp only
    rw [show encode (.remove k) ++ rest =
        preRemove ++ (escapeStr k.data ++ '\x22' :: (endBraces ++ rest)) by
      simp [encode]]
    rw [dropPre_append]
    dsimp only
    rw [parseStrBody_escapeStr]
    dsimp only
    rw [dropPre_append]

theorem decodeFull_encode (c : Command) : decodeFull (encode c) = some c := by
  have h := parseRec_encode c []
  rw [List.append_nil] at h
  simp [decodeFull, h]

theorem parseRec_length (s : List Char) (c : Command) (r : List Char)
    (h : parseRec s = some (c, r)) : r.length < s.length := by
  unfold parseRec at h
  cases h₁ : dropPre preSet s with
  | some s₁ =>
    rw [h₁] at h; dsimp only at h
    cases h₂ : parseStrBody s₁ with
    | none => rw [h₂] at h; dsimp only at h; cases h
    | some p =>
      obtain ⟨k, s₂⟩ := p
      rw [h₂] at h; dsimp only at h
      cases h₃ : dropPre midSet s₂ with
      | none => rw [h₃] at h; dsimp only at h; cases h
      | some s₃ =>
        rw [h₃] at h; dsimp only at h
        cases h₄ : parseStrBody s₃ with
        | none => rw [h₄] at h; dsimp only at h; cases h
        | some q =>
          obtain ⟨v, s₄⟩ := q
          rw [h₄] at h; dsimp only at h
          cases h₅ : dropPre endBraces s₄ with
          | none => rw [h₅] at h; dsimp only at h; cases h
          | some s₅ =>
            rw [h₅] at h; dsimp only at h
            obtain ⟨rfl, rfl⟩ : Command.set (String.mk k) (String.mk v) = c ∧ s₅ = r := by
              simpa using h
            have l₁ := dropPre_length _ _ _ h₁
            have l₂ := parseStrBody_length _ _ _ h₂
            have l₃ := dropPre_length _ _ _ h₃
            have l₄ := parseStrBody_length _ _ _ h₄
            have l₅ := dropPre_length _ _ _ h₅
            simp only [preSet, midSet, endBraces, List.length_cons, List.length_nil] at l₁ l₃ l₅
            omega
  | none =>
    rw [h₁] at h; dsimp only at h
    cases h₂ : dropPre preRemove s with
    | none => rw [h₂] at h; dsimp only at h; cases h
    | some s₁ =>
      rw [h₂] at h; dsimp only at h
      cases h₃ : parseStrBody s₁ with
      | none => rw [h₃] at h; dsimp only at h; cases h
      | some p =>
        obtain ⟨k, s₂⟩ := p
        rw [h₃] at h; dsimp only at h
        cases h₄ : dropPre endBraces s₂ with
        | none => rw [h₄] at h; dsimp only at h; cases h
        | some s₃ =>
          rw [h₄] at h; dsimp only at h
          obtain ⟨rfl, rfl⟩ : Command.remove (String.mk k) = c ∧ s₃ = r := by
            simpa using h
          have l₂ := dropPre_length _ _ _ h₂
          have l₃ := parseStrBody_length _ _ _ h₃
          have l₄ := dropPre_length _ _ _ h₄
          simp only [preRemove, endBraces, List.length_cons, List.length_nil] at l₂ l₄
          omega

/-! ### Association lists (the model of std `HashMap`; iteration order of the
source's `HashMap` is unspecified and becomes list order here) -/

/-- `HashMap::get`. -/
def alookup {κ α : Type} [DecidableEq κ] : List (κ × α) → κ → Option α
  | [], _ => none
  | (k', v) :: rest, k => if k' = k then some v else alookup rest k

/-- `HashMap::insert`: replace in place, returning the previous value. -/
def ainsert {κ α : Type} [DecidableEq κ] : List (κ × α) → κ → α → List (κ × α) × Option α
  | [], k, v => ([(k, v)], none)
  | (k', v') :: rest, k, v =>
    if k' = k then ((k, v) :: rest, some v')
    else
      let r := ainsert rest k v
      ((k', v') :: r.1, r.2)

/-- `HashMap::remove`, returning the removed value. -/
def aerase {κ α : Type} [DecidableEq κ] : List (κ × α) → κ → List (κ × α) × Option α
  | [], _ => ([], none)
  | (k', v') :: rest, k =>
    if k' = k then (rest, some v')
    else
      let r := aerase rest k
      ((k', v') :: r.1, r.2)

/-! ### std `BinaryHeap`'s backing array

`version_list` collects the directory's version numbers into a
`BinaryHeap` (`From<Vec<T>>` runs Floyd heapify), and `open` iterates
`version_heap.iter().rev()`: the backing array, reversed. -/

/-- Heap array read (out of range reads 0). -/
def lget (l : List Nat) (i : Nat) : Nat := l.getD i 0

/-- Swap two positions of the heap array. -/
def lswap (l : List Nat) (i j : Nat) : List Nat := (l.set i (lget l j)).set j (lget l i)

/-- Rust std's `sift_down` loop body: move the element at `i` down, swapping
with the greater child (the right child on ties), while the element is
smaller.  The `fuel` argument makes the recursion structural (hence
computable by the kernel); each step moves to a child index, which is
strictly larger and below `l.length`, so at most `l.length` steps can
happen and the out-of-fuel branch is unreachable when called with
`l.length` fuel. -/
def siftDownAux : Nat → List Nat → Nat → List Nat
  | 0, l, _ => l
  | fuel + 1, l, i =>
    if 2 * i + 1 < l.length then
      if 2 * i + 2 < l.length ∧ lget l (2 * i + 1) ≤ lget l (2 * i + 2) then
        if lget l i < lget l (2 * i + 2) then siftDownAux fuel (lswap l i (2 * i + 2)) (2 * i + 2)
        else l
      else if lget l i < lget l (2 * i + 1) then siftDownAux fuel (lswap l i (2 * i + 1)) (2 * i + 1)
      else l
    else l

/-- Rust std's `sift_down` from index `i`. -/
def siftDown (l : List Nat) (i : Nat) : List Nat := siftDownAux l.length l i

/-- Rust std's `BinaryHeap::rebuild`: `sift_down` at `len/2 - 1, …, 0`. -/
def rebuildAux : List Nat → Nat → List Nat
  | l, 0 => l
  | l, n + 1 => rebuildAux (siftDown l n) n

/-- The heap's backing array after `collect`ing a vector of versions. -/
def heapify (l : List Nat) : List Nat := rebuildAux l (l.length / 2)

/-- The order in which `KvStore::open` replays log versions:
`version_heap.iter().rev()`, i.e. the backing array reversed. -/
def replayOrder (enum : List Nat) : List Nat := (heapify enum).reverse

/-- `version_heap.peek().unwrap_or(&0)`: `BinaryHeap::peek` returns the
greatest element (std's documented contract); 0 when the heap is empty. -/
def versionPeekD (enum : List Nat) : Nat := enum.foldr max 0

/-! ### The store -/

/-- `MAX_STALE_BYTES` of `src/kvs/lib.rs`. -/
def MAX_STALE_BYTES : Nat := 100

/-- `struct KvStore`: the index, the versions with open readers, the
stale-byte counter, the active version, and the directory (version to file
contents).  The active writer is the file at `version`; its tracked
position equals that file's length. -/
structure KvStore where
  index : List (String × CommandPosition)
  readers : List Nat
  stale_bytes : Nat
  version : Nat
  files : List (Nat × List Char)
deriving DecidableEq

/-- Contents of the log file of a version (empty if absent). -/
def fileOf (files : List (Nat × List Char)) (v : Nat) : List Char := (alookup files v).getD []

/-- The `len` chars at offset `pos`: a reader's `seek(Start pos)` + `take len`. -/
def sliceAt (file : List Char) (pos len : Nat) : List Char := (file.drop pos).take len

/-- The chars a locator resolves to. -/
def sliceSt (st : KvStore) (cp : CommandPosition) : List Char :=
  sliceAt (fileOf st.files cp.ver) cp.pos cp.len

/-- The active log file (the writer's target). -/
def activeFile (st : KvStore) : List Char := fileOf st.files st.version

/-- Append to the active log and flush (`serde_json::to_writer` + `flush`). -/
def writeActive (st : KvStore) (chunk : List Char) : KvStore :=
  { st with files := (ainsert st.files st.version (activeFile st ++ chunk)).1 }

/-- `KvStore::get` in the reader-free abstraction.  The outer `none`
models the `expect("Cannot find log reader")` panic.  The real `get`
also moves the version's reader: the seek sets its tracked `pos` to
`cp.pos` and the deserialization then advances the underlying stream
past the record while leaving `pos` behind (reader.rs:25-29) — state
that `compact`'s skip-seek check observes.  `getOpR` below carries it;
this abstraction is sound only where no `get` precedes a compaction,
and is applied only on such runs. -/
def getOp (st : KvStore) (key : String) : Option (Except KvsError (Option String)) :=
  match alookup st.index key with
  | none => some (.ok none)
  | some cp =>
    if cp.ver ∈ st.readers then
      match decodeFull (sliceSt st cp) with
      | some (.set _ value) => some (.ok (some value))
      | some (.remove _) =>
        some (.error (.unexpectedCommandType ("no existing command for key: " ++ key)))
      | none => some (.error .serde)
    else none

/-- `new_log_file`: open `<version>.log` with create + append (no truncation
of an existing file) and register its reader. -/
def createLog (files : List (Nat × List Char)) (v : Nat) : List (Nat × List Char) :=
  if (alookup files v).isSome then files else (ainsert files v []).1

/-- The entry-copying loop of `KvStore::compact` in the reader-free
abstraction: each copy reads `[cp.pos, cp.pos + cp.len)` of the entry's
file (fewer chars if the file is short; the copied count becomes the new
length) and repoints the entry at `(compactV, newPos, copied)`.  The
source seeks only when the reader's tracked `pos()` differs from
`cp.pos` (lib.rs:261-263) and copies from the reader's stream position;
`compactLoopR` below is the faithful version.  On runs without `get` the
two agree: the skip can fire only with tracked = stream (both start at
0/0 on a fresh reader, each in-loop seek sets them together, and after a
copy the tracked position equals that entry's offset, distinct from
every other live offset of the same version), so the copy always reads
from `cp.pos` there.  Reads see the flushed pre-compaction contents; the
copied chars accumulate in the compaction writer's buffer `acc`, flushed
after the loop.  `none` models the `expect("Cannot find log reader")`
panic. -/
def compactLoop (files : List (Nat × List Char)) (readers : List Nat) (compactV : Nat) :
    List (String × CommandPosition) → Nat → List Char →
      Option (List (String × CommandPosition) × List Char)
  | [], _, acc => some ([], acc)
  | (k, cp) :: rest, newPos, acc =>
    if cp.ver ∈ readers then
      let chunk := sliceAt (fileOf files cp.ver) cp.pos cp.len
      match compactLoop files readers compactV rest (newPos + chunk.length) (acc ++ chunk) with
      | some (idx, content) => some ((k, ⟨compactV, newPos, chunk.length⟩) :: idx, content)
      | none => none
    else none

/-- `KvStore::compact`: allocate `compact_version = version + 1` and a new
active `version + 2` (both with fresh log files and readers), copy every
live entry into the compaction log, flush it, then drop the readers of all
versions below `compact_version` and delete their files.  Faithful to the
source: the stale-byte counter is not touched. -/
def compactOp (st : KvStore) : Option KvStore :=
  let compactV := st.version + 1
  let newV := st.version + 2
  let files₁ := createLog st.files newV
  let readers₁ := newV :: st.readers
  let files₂ := createLog files₁ compactV
  let readers₂ := compactV :: readers₁
  match compactLoop files₂ readers₂ compactV st.index 0 [] with
  | none => none
  | some (idx, content) =>
    let files₃ := (ainsert files₂ compactV (fileOf files₂ compactV ++ content)).1
    let staleVs := readers₂.filter fun v => decide (v < compactV)
    let readers₃ := readers₂.filter fun v => ! decide (v ∈ staleVs)
    let files₄ := files₃.filter fun e => ! decide (e.1 ∈ staleVs)
    some ⟨idx, readers₃, st.stale_bytes, newV, files₄⟩

/-- `KvStore::set` up to the compaction check: encode, capture the writer
position `pos`, append + flush, insert the locator
`(version, pos..writer.pos())`, counting a replaced locator's length as
stale. -/
def setStep (st : KvStore) (key value : String) : KvStore :=
  let enc := encode (.set key value)
  let pos := (activeFile st).length
  let st₁ := writeActive st enc
  let ins := ainsert st₁.index key ⟨st.version, pos, pos + enc.length - pos⟩
  { st₁ with
      index := ins.1
      stale_bytes := st.stale_bytes + ((ins.2.map CommandPosition.len).getD 0) }

/-- `KvStore::set`: the write/index step, then compaction when the stale
counter exceeds `MAX_STALE_BYTES`.  `none` models a panic inside the
triggered compaction. -/
def setOp (st : KvStore) (key value : String) : Option KvStore :=
  let st₂ := setStep st key value
  if st₂.stale_bytes > MAX_STALE_BYTES then compactOp st₂ else some st₂

/-- `KvStore::remove`: on a missing key fail with `KeyNotFound`, leaving the
store untouched; otherwise append a `Remove` record, flush, drop the index
entry and add the dropped locator's length to the stale counter (the
`Remove` record's own length is not added). -/
def removeOp (st : KvStore) (key : String) : KvStore × Except KvsError Unit :=
  match alookup st.index key with
  | none => (st, .error (.keyNotFound ("could not find key: " ++ key)))
  | some old =>
    let st₁ := writeActive st (encode (.remove key))
    ({ st₁ with
        index := (aerase st₁.index key).1
        stale_bytes := st.stale_bytes + old.len }, .ok ())

/-- `Loader::load`'s streaming loop: from the unparsed remainder `s` at
offset `pos`, insert `Set` locators (a superseded locator's length counts
as stale) and erase on `Remove` (the erased locator and the `Remove`
record itself count as stale).  The remainder shrinks at every step
(`parseRec_length`), so the recursion is made structural on a `fuel`
argument; `loadAux_fuel` shows any fuel above `s.length` gives the same
result, so the out-of-fuel branch is unreachable from `loadLog`. -/
def loadAux : Nat → Nat → List Char → Nat → List (String × CommandPosition) → Nat →
    Except KvsError (List (String × CommandPosition) × Nat)
  | 0, _, _, _, idx, stale => .ok (idx, stale)
  | fuel + 1, ver, s, pos, idx, stale =>
    if s = [] then .ok (idx, stale)
    else
      match parseRec s with
      | none => .error .serde
      | some (cmd, rest) =>
        let newPos := pos + (s.length - rest.length)
        match cmd with
        | .set k _ =>
          let ins := ainsert idx k ⟨ver, pos, newPos - pos⟩
          loadAux fuel ver rest newPos ins.1
            (stale + ((ins.2.map CommandPosition.len).getD 0))
        | .remove k =>
          let er := aerase idx k
          loadAux fuel ver rest newPos er.1
            (stale + ((er.2.map CommandPosition.len).getD 0) + (newPos - pos))

/-- `Loader::load`: stream records from a log from offset 0. -/
def loadLog (ver : Nat) (s : List Char) (idx : List (String × CommandPosition))
    (stale : Nat) : Except KvsError (List (String × CommandPosition) × Nat) :=
  loadAux (s.length + 1) ver s 0 idx stale

theorem loadAux_fuel :
    ∀ (f₁ : Nat), ∀ {f₂ : Nat} (s : List Char), s.length < f₁ → s.length < f₂ →
      ∀ (ver pos : Nat) (idx : List (String × CommandPosition)) (stale : Nat),
        loadAux f₁ ver s pos idx stale = loadAux f₂ ver s pos idx stale := by
  intro f₁
  induction f₁ with
  | zero => intro f₂ s h₁; omega
  | succ f₁ ih =>
    intro f₂ s h₁ h₂ ver pos idx stale
    match f₂, h₂ with
    | f₂ + 1, h₂ =>
      by_cases hs : s = []
      · subst hs; rfl
      · show loadAux (f₁ + 1) ver s pos idx stale = loadAux (f₂ + 1) ver s pos idx stale
        unfold loadAux
        rw [if_neg hs, if_neg hs]
        cases hp : parseRec s with
        | none => rfl
        | some p =>
          obtain ⟨cmd, rest⟩ := p
          have hlen := parseRec_length _ _ _ hp
          cases cmd with
          | set k kv => exact ih rest (by omega) (by omega) _ _ _ _
          | remove k => exact ih rest (by omega) (by omega) _ _ _ _

/-- The recovery loop of `KvStore::open`: open and load each version in
replay order (a missing file fails `File::open`). -/
def loadAll (files : List (Nat × List Char)) :
    List Nat → List (String × CommandPosition) → Nat →
      Except KvsError (List (String × CommandPosition) × Nat)
  | [], idx, stale => .ok (idx, stale)
  | v :: vs, idx, stale =>
    match alookup files v with
    | none => .error .ioFailure
    | some content =>
      match loadLog v content idx stale with
      | .error e => .error e
      | .ok (idx', stale') => loadAll files vs idx' stale'

/-- `KvStore::open` over a directory, given the order in which `read_dir`
yields the log versions (`enum`; the OS guarantees no particular order). -/
def openStore (files : List (Nat × List Char)) (enum : List Nat) : Except KvsError KvStore :=
  let current := versionPeekD enum + 1
  match loadAll files (replayOrder enum) [] 0 with
  | .error e => .error e
  | .ok (idx, stale) =>
    .ok ⟨idx, current :: replayOrder enum, stale, current, createLog files current⟩

/-! ### Caller-level operations and the reference map -/

/-- A mutation request issued by a caller. -/
inductive Op where
  | set (k v : String)
  | remove (k : String)
deriving DecidableEq

/-- Run one mutation; `none` when it fails (a `remove` of an absent key) or
panics. -/
def applyOp (st : KvStore) : Op → Option KvStore
  | .set k v => setOp st k v
  | .remove k =>
    match removeOp st k with
    | (st', .ok _) => some st'
    | (_, .error _) => none

/-- Run a sequence of mutations, all of which must succeed. -/
def runOps : KvStore → List Op → Option KvStore
  | st, [] => some st
  | st, op :: ops =>
    match applyOp st op with
    | some st' => runOps st' ops
    | none => none

/-- One step of the reference semantics: a plain in-memory map. -/
def refApply (m : String → Option String) : Op → String → Option String
  | .set k v => fun q => if q = k then some v else m q
  | .remove k => fun q => if q = k then none else m q

/-- The reference map after a sequence of mutations. -/
def runRef (ops : List Op) : String → Option String :=
  ops.foldl refApply fun _ => none

/-- The store `open` builds over an initially empty directory. -/
def freshStore : KvStore := ⟨[], [1], 0, 1, [(1, [])]⟩

theorem openStore_nil : openStore [] [] = .ok freshStore := rfl

/-! ### The refined model: reader positions kept

`struct KvsReader` (reader.rs) records a position `pos` that only `new`
and `seek` assign; the `Read` impl forwards to the buffered stream
without touching `pos`, so after a read the underlying stream is ahead
of the tracked position.  `KvStore::get` seeks to the record and then
deserializes through `take(len)`, leaving `pos` at the record's start
with the stream at its end; `KvStore::compact` skips its seek whenever
`reader.pos() == cmd_pos.pos` (lib.rs:261) and `io::copy` then reads
from wherever the stream stands.  The refined store `KvStoreR` carries
each version's `(tracked, stream)` pair so this interaction is embedded
literally. -/

/-- A `KvsReader`'s state: `tracked` is the `pos` field (assigned only by
`new` and `seek`), `stream` the underlying stream position (advanced by
every read; reads never assign `tracked`). -/
structure RdrState where
  tracked : Nat
  stream : Nat
deriving DecidableEq

/-- `KvsReader::new`: seek the inner file to 0. -/
def freshRdr : RdrState := ⟨0, 0⟩

/-- The store with each version's reader state kept (the refinement of
`KvStore`; all other fields are as there). -/
structure KvStoreR where
  index : List (String × CommandPosition)
  readers : List (Nat × RdrState)
  stale_bytes : Nat
  version : Nat
  files : List (Nat × List Char)
deriving DecidableEq

/-- The active log file of the refined store. -/
def activeFileR (st : KvStoreR) : List Char := fileOf st.files st.version

/-- Append to the active log and flush (writes go through the writer and
touch no reader). -/
def writeActiveR (st : KvStoreR) (chunk : List Char) : KvStoreR :=
  { st with files := (ainsert st.files st.version (activeFileR st ++ chunk)).1 }

/-- `KvStore::get` with reader state.  The seek sets the reader to
`(cp.pos, cp.pos)`; `from_reader` on `take(cp.len)` then consumes the
available chars of `[cp.pos, cp.pos + cp.len)` — a full record on
success, nothing when the slice is empty; every slice a reachable store
resolves is one of the two — advancing the stream to the take's end
while `tracked` stays at `cp.pos`.  The outer `none` models the
`expect("Cannot find log reader")` panic. -/
def getOpR (st : KvStoreR) (key : String) :
    Option (KvStoreR × Except KvsError (Option String)) :=
  match alookup st.index key with
  | none => some (st, .ok none)
  | some cp =>
    if (alookup st.readers cp.ver).isSome then
      let chunk := sliceAt (fileOf st.files cp.ver) cp.pos cp.len
      let st' := { st with
        readers := (ainsert st.readers cp.ver ⟨cp.pos, cp.pos + chunk.length⟩).1 }
      match decodeFull chunk with
      | some (.set _ value) => some (st', .ok (some value))
      | some (.remove _) =>
        some (st', .error (.unexpectedCommandType ("no existing command for key: " ++ key)))
      | none => some (st', .error .serde)
    else none

/-- The entry-copying loop of `KvStore::compact` with reader state: the
seek is skipped when the reader's tracked `pos()` already equals the
entry's offset (lib.rs:261-263), and `io::copy` reads up to `cp.len`
chars from the reader's current *stream* position — wherever that is —
advancing the stream by the chars actually copied and leaving `tracked`
untouched.  The copied count becomes the entry's new length.  `none`
models the `expect("Cannot find log reader")` panic. -/
def compactLoopR (files : List (Nat × List Char)) (compactV : Nat) :
    List (String × CommandPosition) → List (Nat × RdrState) → Nat → List Char →
      Option (List (String × CommandPosition) × List (Nat × RdrState) × List Char)
  | [], rdrs, _, acc => some ([], rdrs, acc)
  | (k, cp) :: rest, rdrs, newPos, acc =>
    match alookup rdrs cp.ver with
    | none => none
    | some r =>
      let r₁ := if r.tracked ≠ cp.pos then (⟨cp.pos, cp.pos⟩ : RdrState) else r
      let chunk := sliceAt (fileOf files cp.ver) r₁.stream cp.len
      let rdrs₁ := (ainsert rdrs cp.ver ⟨r₁.tracked, r₁.stream + chunk.length⟩).1
      match compactLoopR files compactV rest rdrs₁ (newPos + chunk.length) (acc ++ chunk) with
      | some (idx, rdrs₂, content) =>
        some ((k, ⟨compactV, newPos, chunk.length⟩) :: idx, rdrs₂, content)
      | none => none

/-- `KvStore::compact` with reader state: allocate
`compact_version = version + 1` and a new active `version + 2` (each
`new_log_file` registers a fresh reader at `(0, 0)`), run the copy loop,
flush the compaction writer, then drop the readers of all versions below
`compact_version` and delete their files.  The stale-byte counter is not
touched (faithful to the source). -/
def compactOpR (st : KvStoreR) : Option KvStoreR :=
  let compactV := st.version + 1
  let newV := st.version + 2
  let files₁ := createLog st.files newV
  let rdrs₁ := (ainsert st.readers newV freshRdr).1
  let files₂ := createLog files₁ compactV
  let rdrs₂ := (ainsert rdrs₁ compactV freshRdr).1
  match compactLoopR files₂ compactV st.index rdrs₂ 0 [] with
  | none => none
  | some (idx, rdrs₃, content) =>
    let files₃ := (ainsert files₂ compactV (fileOf files₂ compactV ++ content)).1
    let staleVs := (rdrs₃.map Prod.fst).filter fun v => decide (v < compactV)
    let rdrs₄ := rdrs₃.filter fun e => ! decide (e.1 ∈ staleVs)
    let files₄ := files₃.filter fun e => ! decide (e.1 ∈ staleVs)
    some ⟨idx, rdrs₄, st.stale_bytes, newV, files₄⟩

/-- `KvStore::set` up to the compaction check, on the refined store
(readers untouched: the write goes through the writer). -/
def setStepR (st : KvStoreR) (key value : String) : KvStoreR :=
  let enc := encode (.set key value)
  let pos := (activeFileR st).length
  let st₁ := writeActiveR st enc
  let ins := ainsert st₁.index key ⟨st.version, pos, pos + enc.length - pos⟩
  { st₁ with
      index := ins.1
      stale_bytes := st.stale_bytes + ((ins.2.map CommandPosition.len).getD 0) }

/-- `KvStore::set` on the refined store: the write/index step, then
compaction when the stale counter exceeds `MAX_STALE_BYTES`. -/
def setOpR (st : KvStoreR) (key value : String) : Option KvStoreR :=
  let st₂ := setStepR st key value
  if st₂.stale_bytes > MAX_STALE_BYTES then compactOpR st₂ else some st₂

/-- `KvStore::remove` on the refined store (readers untouched). -/
def removeOpR (st : KvStoreR) (key : String) : KvStoreR × Except KvsError Unit :=
  match alookup st.index key with
  | none => (st, .error (.keyNotFound ("could not find key: " ++ key)))
  | some old =>
    let st₁ := writeActiveR st (encode (.remove key))
    ({ st₁ with
        index := (aerase st₁.index key).1
        stale_bytes := st.stale_bytes + old.len }, .ok ())

/-- `KvStore::open` on the refined store: recovery as in `openStore`;
each replayed version's reader is re-constructed fresh after its load
(lib.rs:91-92) and `new_log_file` registers the active version's fresh
reader, so every reader starts at `(0, 0)`. -/
def openStoreR (files : List (Nat × List Char)) (enum : List Nat) :
    Except KvsError KvStoreR :=
  let current := versionPeekD enum + 1
  match loadAll files (replayOrder enum) [] 0 with
  | .error e => .error e
  | .ok (idx, stale) =>
    let rdrs := (replayOrder enum).foldl (fun m v => (ainsert m v freshRdr).1) []
    .ok ⟨idx, (ainsert rdrs current freshRdr).1, stale, current, createLog files current⟩

/-- The refined store `open` builds over an initially empty directory. -/
def freshStoreR : KvStoreR := ⟨[], [(1, freshRdr)], 0, 1, [(1, [])]⟩

theorem openStoreR_nil : openStoreR [] [] = .ok freshStoreR := rfl

/-! ### Association-list lemmas -/

section AssocLemmas

variable {κ α : Type} [DecidableEq κ]

theorem alookup_ainsert_self (l : List (κ × α)) (k : κ) (v : α) :
    alookup (ainsert l k v).1 k = some v := by
  induction l with
  | nil => simp [ainsert, alookup]
  | cons e rest ih =>
    obtain ⟨k', v'⟩ := e
    by_cases h : k' = k
    · subst h; simp [ainsert, alookup]
    · simp [ainsert, alookup, h, ih]

theorem alookup_ainsert_ne (l : List (κ × α)) {k k' : κ} (v : α) (h : k' ≠ k) :
    alookup (ainsert l k v).1 k' = alookup l k' := by
  have hne : ¬ k = k' := fun hh => h hh.symm
  induction l with
  | nil => simp [ainsert, alookup, hne]
  | cons e rest ih =>
    obtain ⟨a, b⟩ := e
    by_cases ha : a = k
    · subst ha
      simp [ainsert, alookup, hne]
    · simp [ainsert, alookup, ha, ih]

theorem ainsert_snd (l : List (κ × α)) (k : κ) (v : α) :
    (ainsert l k v).2 = alookup l k := by
  induction l with
  | nil => simp [ainsert, alookup]
  | cons e rest ih =>
    obtain ⟨a, b⟩ := e
    by_cases ha : a = k
    · subst ha; simp [ainsert, alookup]
    · simp [ainsert, alookup, ha, ih]

theorem ainsert_mem {l : List (κ × α)} {k : κ} {v : α} {e : κ × α}
    (h : e ∈ (ainsert l k v).1) : e ∈ l ∨ e = (k, v) := by
  induction l with
  | nil => simpa [ainsert] using h
  | cons a rest ih =>
    obtain ⟨a₁, a₂⟩ := a
    by_cases ha : a₁ = k
    · subst ha
      simp [ainsert] at h
      simp only [List.mem_cons]
      tauto
    · simp only [ainsert, if_neg ha, List.mem_cons] at h
      simp only [List.mem_cons]
      rcases h with h | h
      · tauto
      · rcases ih h with h' | h' <;> tauto

theorem ainsert_mem_keys {l : List (κ × α)} {k q : κ} {v : α}
    (h : q ∈ (ainsert l k v).1.map Prod.fst) : q ∈ l.map Prod.fst ∨ q = k := by
  simp only [List.mem_map] at h
  obtain ⟨e, he, rfl⟩ := h
  rcases ainsert_mem he with h' | h'
  · exact .inl (List.mem_map_of_mem _ h')
  · subst h'; exact .inr rfl

theorem ainsert_nodup {l : List (κ × α)} {k : κ} {v : α}
    (h : (l.map Prod.fst).Nodup) : ((ainsert l k v).1.map Prod.fst).Nodup := by
  induction l with
  | nil => simp [ainsert]
  | cons a rest ih =>
    obtain ⟨a₁, a₂⟩ := a
    simp only [List.map_cons, List.nodup_cons] at h
    by_cases ha : a₁ = k
    · subst ha
      simpa [ainsert] using h
    · simp only [ainsert, if_neg ha, List.map_cons, List.nodup_cons]
      refine ⟨fun hmem => ?_, ih h.2⟩
      rcases ainsert_mem_keys hmem with h' | h'
      · exact h.1 h'
      · exact ha h'

theorem aerase_snd (l : List (κ × α)) (k : κ) : (aerase l k).2 = alookup l k := by
  induction l with
  | nil => simp [aerase, alookup]
  | cons e rest ih =>
    obtain ⟨a, b⟩ := e
    by_cases ha : a = k
    · subst ha; simp [aerase, alookup]
    · simp [aerase, alookup, ha, ih]

theorem alookup_aerase_ne (l : List (κ × α)) {k k' : κ} (h : k' ≠ k) :
    alookup (aerase l k).1 k' = alookup l k' := by
  have hne : ¬ k = k' := fun hh => h hh.symm
  induction l with
  | nil => simp [aerase]
  | cons e rest ih =>
    obtain ⟨a, b⟩ := e
    by_cases ha : a = k
    · subst ha
      simp [aerase, alookup, hne]
    · simp [aerase, alookup, ha, ih]

theorem alookup_none_of_not_mem {l : List (κ × α)} {k : κ}
    (h : k ∉ l.map Prod.fst) : alookup l k = none := by
  induction l with
  | nil => simp [alookup]
  | cons e rest ih =>
    obtain ⟨a, b⟩ := e
    simp only [List.map_cons, List.mem_cons, not_or] at h
    have hne : ¬ a = k := fun hh => h.1 hh.symm
    simp [alookup, hne, ih h.2]

theorem alookup_aerase_self {l : List (κ × α)} {k : κ}
    (hnd : (l.map Prod.fst).Nodup) : alookup (aerase l k).1 k = none := by
  induction l with
  | nil => simp [aerase, alookup]
  | cons e rest ih =>
    obtain ⟨a, b⟩ := e
    simp only [List.map_cons, List.nodup_cons] at hnd
    by_cases ha : a = k
    · subst ha
      simpa [aerase] using alookup_none_of_not_mem hnd.1
    · simp [aerase, alookup, ha, ih hnd.2]

theorem aerase_mem {l : List (κ × α)} {k : κ} {e : κ × α}
    (h : e ∈ (aerase l k).1) : e ∈ l := by
  induction l with
  | nil => simp [aerase] at h
  | cons a rest ih =>
    obtain ⟨a₁, a₂⟩ := a
    by_cases ha : a₁ = k
    · subst ha
      simp only [aerase, if_pos rfl] at h
      exact List.mem_cons_of_mem _ h
    · simp only [aerase, if_neg ha, List.mem_cons] at h
      simp only [List.mem_cons]
      rcases h with h | h
      · tauto
      · exact .inr (ih h)

theorem aerase_nodup {l : List (κ × α)} {k : κ}
    (h : (l.map Prod.fst).Nodup) : ((aerase l k).1.map Prod.fst).Nodup := by
  induction l with
  | nil => simp [aerase]
  | cons a rest ih =>
    obtain ⟨a₁, a₂⟩ := a
    simp only [List.map_cons, List.nodup_cons] at h
    by_cases ha : a₁ = k
    · subst ha; simpa [aerase] using h.2
    · simp only [aerase, if_neg ha, List.map_cons, List.nodup_cons]
      refine ⟨fun hmem => ?_, ih h.2⟩
      simp only [List.mem_map] at hmem
      obtain ⟨e, he, rfl⟩ := hmem
      exact h.1 (List.mem_map_of_mem _ (aerase_mem he))

theorem alookup_filter (p : κ × α → Bool) (l : List (κ × α)) (k : κ)
    (hp : ∀ v, p (k, v) = true) : alookup (l.filter p) k = alookup l k := by
  induction l with
  | nil => simp [alookup]
  | cons e rest ih =>
    obtain ⟨a, b⟩ := e
    by_cases ha : a = k
    · subst ha
      simp [List.filter_cons, hp b, alookup]
    · cases hpe : p (a, b) with
      | true => simp [List.filter_cons, hpe, alookup, ha, ih]
      | false => simp [List.filter_cons, hpe, alookup, ha, ih]

theorem alookup_mem {l : List (κ × α)} {k : κ} {v : α}
    (h : alookup l k = some v) : (k, v) ∈ l := by
  induction l with
  | nil => simp [alookup] at h
  | cons e rest ih =>
    obtain ⟨a, b⟩ := e
    by_cases ha : a = k
    · subst ha
      simp [alookup] at h
      simp [h]
    · simp only [alookup, if_neg ha] at h
      exact List.mem_cons_of_mem _ (ih h)

end AssocLemmas

/-! ### Slice lemmas -/

theorem sliceAt_append {f : List Char} (g : List Char) {pos len : Nat}
    (h : pos + len ≤ f.length) : sliceAt (f ++ g) pos len = sliceAt f pos len := by
  unfold sliceAt
  rw [List.drop_append_of_le_length (by omega),
    List.take_append_of_le_length (by simp [List.length_drop]; omega)]

theorem sliceAt_exact (f g : List Char) : sliceAt (f ++ g) f.length g.length = g := by
  unfold sliceAt
  rw [List.drop_left, List.take_length]

theorem sliceAt_length_le (f : List Char) (pos len : Nat) :
    (sliceAt f pos len).length ≤ len := by
  simp [sliceAt]

theorem alookup_of_mem_nodup {κ α : Type} [DecidableEq κ] {l : List (κ × α)}
    (hnd : (l.map Prod.fst).Nodup) {e : κ × α} (he : e ∈ l) : alookup l e.1 = some e.2 := by
  induction l with
  | nil => cases he
  | cons a rest ih =>
    obtain ⟨a₁, a₂⟩ := a
    simp only [List.map_cons, List.nodup_cons] at hnd
    rcases List.mem_cons.mp he with h | h
    · subst h; simp [alookup]
    · have hne : ¬ a₁ = e.1 := by
        intro hh
        exact hnd.1 (hh ▸ List.mem_map_of_mem _ h)
      simp [alookup, hne, ih hnd.2 h]

/-! ### The reachable-state invariant -/

/-- The store invariant relative to a reference map `m`: a key with value
`v` in `m` has an index locator that resolves, through a version with an
open reader, to exactly the in-bounds encoding of `Set { k, v }`; keys
absent from `m` are absent from the index.  The remaining fields record
structural facts every reachable store satisfies. -/
structure Inv (st : KvStore) (m : String → Option String) : Prop where
  agree_some : ∀ k v, m k = some v →
    ∃ cp, alookup st.index k = some cp ∧ cp.ver ∈ st.readers ∧
      cp.pos + cp.len ≤ (fileOf st.files cp.ver).length ∧
      sliceSt st cp = encode (.set k v)
  agree_none : ∀ k, m k = none → alookup st.index k = none
  nodup : (st.index.map Prod.fst).Nodup
  activeR : st.version ∈ st.readers
  readersLe : ∀ v ∈ st.readers, v ≤ st.version
  filesLe : ∀ e ∈ st.files, e.1 ≤ st.version

theorem inv_fresh : Inv freshStore fun _ => none where
  agree_some := fun _ v h => absurd h (by simp)
  agree_none := fun _ _ => rfl
  nodup := by simp [freshStore]
  activeR := by simp [freshStore]
  readersLe := by intro v hv; simp [freshStore] at hv; simp [freshStore, hv]
  filesLe := by intro e he; simp [freshStore] at he; simp [freshStore, he]

theorem getOp_of_inv {st : KvStore} {m : String → Option String} (hinv : Inv st m)
    (k : String) : getOp st k = some (.ok (m k)) := by
  unfold getOp
  cases hm : m k with
  | none => rw [hinv.agree_none k hm]
  | some v =>
    obtain ⟨cp, hl, hr, _, hs⟩ := hinv.agree_some k v hm
    rw [hl]
    dsimp only
    rw [if_pos hr, hs, decodeFull_encode]

theorem fileOf_writeActive_self (st : KvStore) (chunk : List Char) :
    fileOf (writeActive st chunk).files st.version = activeFile st ++ chunk := by
  simp [writeActive, fileOf, alookup_ainsert_self]

theorem fileOf_writeActive_ne (st : KvStore) (chunk : List Char) {v : Nat}
    (hv : v ≠ st.version) :
    fileOf (writeActive st chunk).files v = fileOf st.files v := by
  simp [writeActive, fileOf, alookup_ainsert_ne _ _ hv]

theorem sliceSt_writeActive {st : KvStore} {cp : CommandPosition} (chunk : List Char)
    (hb : cp.pos + cp.len ≤ (fileOf st.files cp.ver).length) :
    sliceSt (writeActive st chunk) cp = sliceSt st cp ∧
      cp.pos + cp.len ≤ (fileOf (writeActive st chunk).files cp.ver).length := by
  by_cases hv : cp.ver = st.version
  · have h1 : fileOf (writeActive st chunk).files cp.ver = activeFile st ++ chunk := by
      rw [hv, fileOf_writeActive_self]
    have hb' : cp.pos + cp.len ≤ (activeFile st).length := by
      rw [activeFile, ← hv]; exact hb
    constructor
    · rw [sliceSt, sliceSt, h1, sliceAt_append _ hb']
      rw [show fileOf st.files cp.ver = activeFile st by rw [activeFile, hv]]
    · rw [h1]; simp; omega
  · have h1 : fileOf (writeActive st chunk).files cp.ver = fileOf st.files cp.ver :=
      fileOf_writeActive_ne st chunk hv
    exact ⟨by rw [sliceSt, sliceSt, h1], h1 ▸ hb⟩

theorem sliceSt_congr {st₁ st₂ : KvStore} (h : st₁.files = st₂.files)
    (cp : CommandPosition) : sliceSt st₁ cp = sliceSt st₂ cp := by
  rw [sliceSt, sliceSt, h]

theorem inv_setStep {st : KvStore} {m : String → Option String} (hinv : Inv st m)
    (k v : String) :
    Inv (setStep st k v) (fun q => if q = k then some v else m q) ∧
      (setStep st k v).version = st.version ∧ (setStep st k v).readers = st.readers := by
  set enc := encode (.set k v) with henc
  set pos := (activeFile st).length with hpos
  have hidx : (setStep st k v).index =
      (ainsert st.index k ⟨st.version, pos, pos + enc.length - pos⟩).1 := rfl
  have hfiles : (setStep st k v).files = (writeActive st enc).files := rfl
  have hver : (setStep st k v).version = st.version := rfl
  have hrdr : (setStep st k v).readers = st.readers := rfl
  have hlen : pos + enc.length - pos = enc.length := by omega
  refine ⟨⟨?_, ?_, ?_, ?_, ?_, ?_⟩, hver, hrdr⟩
  · intro q w hq
    by_cases hk : q = k
    · subst hk
      simp only [if_true, eq_self_iff_true, if_pos, Option.some.injEq] at hq
      rw [← hq]
      refine ⟨⟨st.version, pos, pos + enc.length - pos⟩, ?_, ?_, ?_, ?_⟩
      · rw [hidx]; exact alookup_ainsert_self _ _ _
      · rw [hrdr]; exact hinv.activeR
      · show pos + (pos + enc.length - pos) ≤ (fileOf (setStep st q v).files st.version).length
        rw [hfiles, fileOf_writeActive_self]
        simp only [List.length_append, hlen, ← hpos]
        omega
      · show sliceSt (setStep st q v) ⟨st.version, pos, pos + enc.length - pos⟩ =
          encode (.set q v)
        rw [sliceSt_congr hfiles]
        show sliceAt (fileOf (writeActive st enc).files st.version) pos
          (pos + enc.length - pos) = enc
        rw [fileOf_writeActive_self, hlen, hpos, sliceAt_exact]
    · simp only [if_neg hk] at hq
      obtain ⟨cp, hl, hr, hb, hs⟩ := hinv.agree_some q w hq
      obtain ⟨hs', hb'⟩ := sliceSt_writeActive enc hb
      refine ⟨cp, ?_, ?_, ?_, ?_⟩
      · rw [hidx, alookup_ainsert_ne _ _ hk]; exact hl
      · rw [hrdr]; exact hr
      · rw [show (setStep st k v).files = (writeActive st enc).files from hfiles]; exact hb'
      · rw [sliceSt_congr hfiles, hs']; exact hs
  · intro q hq
    by_cases hk : q = k
    · subst hk; simp at hq
    · simp only [if_neg hk] at hq
      rw [hidx, alookup_ainsert_ne _ _ hk]
      exact hinv.agree_none q hq
  · rw [hidx]; exact ainsert_nodup hinv.nodup
  · rw [hrdr, hver]; exact hinv.activeR
  · rw [hrdr, hver]; exact hinv.readersLe
  · intro e he
    rw [hver]
    have he' : e ∈ (ainsert st.files st.version (activeFile st ++ enc)).1 := he
    rcases ainsert_mem he' with h | h
    · exact hinv.filesLe e h
    · rw [h]

theorem removeOp_absent {st : KvStore} {k : String} (h : alookup st.index k = none) :
    removeOp st k = (st, .error (.keyNotFound ("could not find key: " ++ k))) := by
  unfold removeOp
  rw [h]

theorem inv_removeOp {st : KvStore} {m : String → Option String} (hinv : Inv st m)
    {k v : String} (hm : m k = some v) :
    (removeOp st k).2 = .ok () ∧
      Inv (removeOp st k).1 (fun q => if q = k then none else m q) ∧
      (removeOp st k).1.stale_bytes =
        st.stale_bytes + ((alookup st.index k).map CommandPosition.len).getD 0 := by
  obtain ⟨cp, hl, _, _, _⟩ := hinv.agree_some k v hm
  set enc := encode (.remove k) with henc
  have hro : removeOp st k =
      ({ writeActive st enc with
          index := (aerase (writeActive st enc).index k).1
          stale_bytes := st.stale_bytes + cp.len }, .ok ()) := by
    unfold removeOp
    rw [hl]
  set st' : KvStore :=
    { writeActive st enc with
        index := (aerase (writeActive st enc).index k).1
        stale_bytes := st.stale_bytes + cp.len } with hst'
  have hfl : st'.files = (writeActive st enc).files := rfl
  have hrd : st'.readers = st.readers := rfl
  have hvr : st'.version = st.version := rfl
  have hix : st'.index = (aerase st.index k).1 := rfl
  have hinv' : Inv st' fun q => if q = k then none else m q := by
    refine ⟨?_, ?_, ?_, ?_, ?_, ?_⟩
    · intro q w hq
      by_cases hk : q = k
      · subst hk; simp at hq
      · simp only [if_neg hk] at hq
        obtain ⟨cp', hl', hr', hb', hs'⟩ := hinv.agree_some q w hq
        obtain ⟨hseq, hble⟩ := sliceSt_writeActive enc hb'
        show ∃ c, alookup st'.index q = some c ∧ c.ver ∈ st'.readers ∧
          c.pos + c.len ≤ (fileOf st'.files c.ver).length ∧ sliceSt st' c = encode (.set q w)
        refine ⟨cp', ?_, by rw [hrd]; exact hr', by rw [hfl]; exact hble, ?_⟩
        · rw [hix, alookup_aerase_ne _ hk]; exact hl'
        · rw [sliceSt_congr hfl, hseq]; exact hs'
    · intro q hq
      by_cases hk : q = k
      · subst hk
        show alookup st'.index q = none
        rw [hix]
        exact alookup_aerase_self hinv.nodup
      · simp only [if_neg hk] at hq
        show alookup st'.index q = none
        rw [hix, alookup_aerase_ne _ hk]
        exact hinv.agree_none q hq
    · show (st'.index.map Prod.fst).Nodup
      rw [hix]; exact aerase_nodup hinv.nodup
    · show st'.version ∈ st'.readers
      rw [hrd, hvr]; exact hinv.activeR
    · show ∀ u ∈ st'.readers, u ≤ st'.version
      rw [hrd, hvr]; exact hinv.readersLe
    · intro e he
      have he' : e ∈ (ainsert st.files st.version (activeFile st ++ enc)).1 := he
      show e.1 ≤ st'.version
      rw [hvr]
      rcases ainsert_mem he' with h | h
      · exact hinv.filesLe e h
      · rw [h]
  exact ⟨by rw [hro], by rw [hro]; exact hinv', by rw [hro, hl]; rfl⟩

/-! ### Compaction -/

theorem compactLoop_spec (files : List (Nat × List Char)) (readers : List Nat) (cv : Nat) :
    ∀ (entries : List (String × CommandPosition)) (acc : List Char),
      (∀ e ∈ entries, e.2.ver ∈ readers) →
      ∃ out content,
        compactLoop files readers cv entries acc.length acc = some (out, content) ∧
        out.map Prod.fst = entries.map Prod.fst ∧
        (∃ tail, content = acc ++ tail) ∧
        List.Forall₂ (fun (e e' : String × CommandPosition) =>
          e'.1 = e.1 ∧ e'.2.ver = cv ∧
          e'.2.pos + e'.2.len ≤ content.length ∧
          sliceAt content e'.2.pos e'.2.len = sliceAt (fileOf files e.2.ver) e.2.pos e.2.len)
          entries out := by
  intro entries
  induction entries with
  | nil =>
    intro acc _
    exact ⟨[], acc, by simp [compactLoop], by simp, ⟨[], by simp⟩, .nil⟩
  | cons e rest ih =>
    intro acc hv
    obtain ⟨k, cp⟩ := e
    have hcv : cp.ver ∈ readers := hv _ (List.mem_cons_self _ _)
    set chunk := sliceAt (fileOf files cp.ver) cp.pos cp.len with hchunk
    obtain ⟨out, content, hloop, hkeys, ⟨tail, htail⟩, hfa⟩ :=
      ih (acc ++ chunk) fun e he => hv e (List.mem_cons_of_mem _ he)
    refine ⟨(k, ⟨cv, acc.length, chunk.length⟩) :: out, content, ?_, by simp [hkeys],
      ⟨chunk ++ tail, by rw [htail, List.append_assoc]⟩, ?_⟩
    · show compactLoop files readers cv ((k, cp) :: rest) acc.length acc = _
      simp only [compactLoop, if_pos hcv]
      rw [show acc.length + chunk.length = (acc ++ chunk).length by simp]
      rw [hloop]
    · refine List.Forall₂.cons ⟨rfl, rfl, ?_, ?_⟩ hfa
      · rw [htail]; simp
      · rw [htail, sliceAt_append _ (by simp), sliceAt_exact]

theorem createLog_of_none {files : List (Nat × List Char)} {v : Nat}
    (h : alookup files v = none) : createLog files v = (ainsert files v []).1 := by
  simp [createLog, h]

theorem forall₂_alookup {R : (String × CommandPosition) → (String × CommandPosition) → Prop}
    (hfst : ∀ e e', R e e' → e'.1 = e.1)
    {l l' : List (String × CommandPosition)} (h : List.Forall₂ R l l') :
    ∀ k : String,
      (alookup l k = none → alookup l' k = none) ∧
      (∀ cp, alookup l k = some cp → ∃ cp', alookup l' k = some cp' ∧ R (k, cp) (k, cp')) := by
  induction h with
  | nil => exact fun k => ⟨fun _ => rfl, fun cp hc => by simp [alookup] at hc⟩
  | @cons a b l₁ l₂ hab htail ih =>
    intro k
    obtain ⟨a₁, a₂⟩ := a
    obtain ⟨b₁, b₂⟩ := b
    have hb₁ : b₁ = a₁ := hfst _ _ hab
    subst hb₁
    by_cases hk : b₁ = k
    · subst hk
      refine ⟨fun hnone => by simp [alookup] at hnone, fun cp hc => ?_⟩
      simp [alookup] at hc
      subst hc
      exact ⟨b₂, by simp [alookup], hab⟩
    · simp only [alookup, if_neg hk]
      exact ih k

/-- The store produced by the success branch of `compactOp`. -/
def compactResult (st : KvStore) (out : List (String × CommandPosition))
    (content : List Char) : KvStore :=
  let compactV := st.version + 1
  let newV := st.version + 2
  let files₂ := createLog (createLog st.files newV) compactV
  let files₃ := (ainsert files₂ compactV (fileOf files₂ compactV ++ content)).1
  let readers₂ := compactV :: newV :: st.readers
  let staleVs := readers₂.filter fun v => decide (v < compactV)
  ⟨out, readers₂.filter fun v => ! decide (v ∈ staleVs), st.stale_bytes, newV,
   files₃.filter fun e => ! decide (e.1 ∈ staleVs)⟩

theorem compactOp_eq {st : KvStore} {out : List (String × CommandPosition)}
    {content : List Char}
    (h : compactLoop (createLog (createLog st.files (st.version + 2)) (st.version + 1))
      ((st.version + 1) :: (st.version + 2) :: st.readers) (st.version + 1) st.index 0 [] =
      some (out, content)) :
    compactOp st = some (compactResult st out content) := by
  unfold compactOp compactResult
  dsimp only
  rw [h]

theorem compactResult_rdr_mem (st : KvStore) (out : List (String × CommandPosition))
    (content : List Char) :
    ∀ v, v ∈ (compactResult st out content).readers ↔
      v ∈ (st.version + 1) :: (st.version + 2) :: st.readers ∧ ¬ v < st.version + 1 := by
  intro v
  show v ∈ List.filter _ _ ↔ _
  simp only [List.mem_filter, Bool.not_eq_eq_eq_not, Bool.not_true, decide_eq_false_iff_not,
    List.mem_cons]
  constructor
  · rintro ⟨hv, hns⟩
    refine ⟨hv, fun hlt => hns ?_⟩
    simp only [List.mem_filter, List.mem_cons, decide_eq_true_eq]
    exact ⟨hv, hlt⟩
  · rintro ⟨hv, hnlt⟩
    refine ⟨hv, fun hs => ?_⟩
    simp only [List.mem_filter, List.mem_cons, decide_eq_true_eq] at hs
    exact hnlt hs.2

theorem compactOp_inv_shape {st st' : KvStore} (h : compactOp st = some st') :
    ∃ out content,
      compactLoop (createLog (createLog st.files (st.version + 2)) (st.version + 1))
        ((st.version + 1) :: (st.version + 2) :: st.readers) (st.version + 1) st.index 0 [] =
        some (out, content) ∧ st' = compactResult st out content := by
  unfold compactOp at h
  dsimp only at h
  cases hc : compactLoop (createLog (createLog st.files (st.version + 2)) (st.version + 1))
      ((st.version + 1) :: (st.version + 2) :: st.readers) (st.version + 1) st.index 0 [] with
  | none => rw [hc] at h; cases h
  | some p =>
    obtain ⟨out, content⟩ := p
    rw [hc] at h
    dsimp only at h
    injection h with h'
    exact ⟨out, content, rfl, h'.symm⟩

theorem compactLoop_vers (files : List (Nat × List Char)) (readers : List Nat) (cv : Nat) :
    ∀ (entries : List (String × CommandPosition)) (newPos : Nat) (acc : List Char)
      (out : List (String × CommandPosition)) (content : List Char),
      compactLoop files readers cv entries newPos acc = some (out, content) →
      ∀ e ∈ out, e.2.ver = cv := by
  intro entries
  induction entries with
  | nil =>
    intro newPos acc out content h e he
    injection h with h'
    simp only [Prod.mk.injEq] at h'
    obtain ⟨rfl, -⟩ := h'
    cases he
  | cons a rest ih =>
    obtain ⟨k, cp⟩ := a
    intro newPos acc out content h e he
    unfold compactLoop at h
    split at h
    · dsimp only at h
      cases hrec : compactLoop files readers cv rest
          (newPos + (sliceAt (fileOf files cp.ver) cp.pos cp.len).length)
          (acc ++ sliceAt (fileOf files cp.ver) cp.pos cp.len) with
      | none => rw [hrec] at h; cases h
      | some p =>
        obtain ⟨out₁, content₁⟩ := p
        rw [hrec] at h
        injection h with h'
        simp only [Prod.mk.injEq] at h'
        obtain ⟨rfl, rfl⟩ := h'
        rcases List.mem_cons.mp he with rfl | hmem
        · rfl
        · exact ih _ _ _ _ hrec e hmem
    · cases h

theorem compactOp_spec {st : KvStore} {m : String → Option String} (hinv : Inv st m) :
    ∃ st', compactOp st = some st' ∧ Inv st' m ∧
      st'.stale_bytes = st.stale_bytes ∧ st'.version = st.version + 2 := by
  have hnvfiles : alookup st.files (st.version + 2) = none := by
    apply alookup_none_of_not_mem
    intro hmem
    simp only [List.mem_map] at hmem
    obtain ⟨e, he, hfst⟩ := hmem
    have := hinv.filesLe e he
    omega
  have hfiles₁ : createLog st.files (st.version + 2) = (ainsert st.files (st.version + 2) []).1 :=
    createLog_of_none hnvfiles
  have hcvfiles : alookup (createLog st.files (st.version + 2)) (st.version + 1) = none := by
    rw [hfiles₁, alookup_ainsert_ne _ _ (by omega)]
    apply alookup_none_of_not_mem
    intro hmem
    simp only [List.mem_map] at hmem
    obtain ⟨e, he, hfst⟩ := hmem
    have := hinv.filesLe e he
    omega
  have hfiles₂ : createLog (createLog st.files (st.version + 2)) (st.version + 1) =
      (ainsert (createLog st.files (st.version + 2)) (st.version + 1) []).1 :=
    createLog_of_none hcvfiles
  have hfile₂old : ∀ v', v' ≤ st.version →
      fileOf (createLog (createLog st.files (st.version + 2)) (st.version + 1)) v' =
        fileOf st.files v' := by
    intro v' hv'
    rw [fileOf, fileOf, hfiles₂, alookup_ainsert_ne _ _ (by omega), hfiles₁,
      alookup_ainsert_ne _ _ (by omega)]
  have hfile₂cv :
      fileOf (createLog (createLog st.files (st.version + 2)) (st.version + 1))
        (st.version + 1) = [] := by
    rw [fileOf, hfiles₂, alookup_ainsert_self]
    rfl
  have hentries : ∀ e ∈ st.index,
      e.2.ver ∈ ((st.version + 1) :: (st.version + 2) :: st.readers) := by
    intro e he
    have hle := alookup_of_mem_nodup hinv.nodup he
    cases hm : m e.1 with
    | none => rw [hinv.agree_none _ hm] at hle; cases hle
    | some w =>
      obtain ⟨cp, hl, hr, _, _⟩ := hinv.agree_some _ _ hm
      rw [hl] at hle
      obtain rfl : cp = e.2 := by injection hle
      exact List.mem_cons_of_mem _ (List.mem_cons_of_mem _ hr)
  obtain ⟨out, content, hloop, hkeys, ⟨tail, htail⟩, hfa⟩ :=
    compactLoop_spec (createLog (createLog st.files (st.version + 2)) (st.version + 1))
      ((st.version + 1) :: (st.version + 2) :: st.readers) (st.version + 1) st.index [] hentries
  rw [show ([] : List Char).length = 0 from rfl] at hloop
  rw [show (([] : List Char) ++ tail) = tail by simp] at htail
  subst htail
  refine ⟨compactResult st out content, compactOp_eq hloop, ?_, rfl, rfl⟩
  have hrdr_mem := compactResult_rdr_mem st out content
  have hcv_rdr : st.version + 1 ∈ (compactResult st out content).readers :=
    (hrdr_mem _).mpr ⟨List.mem_cons_self _ _, by omega⟩
  have hnv_rdr : st.version + 2 ∈ (compactResult st out content).readers :=
    (hrdr_mem _).mpr ⟨List.mem_cons_of_mem _ (List.mem_cons_self _ _), by omega⟩
  have hfcv : fileOf (compactResult st out content).files (st.version + 1) = content := by
    show fileOf (List.filter _ _) _ = content
    rw [fileOf, alookup_filter]
    · show (alookup (ainsert _ (st.version + 1) _).1 (st.version + 1)).getD [] = content
      rw [alookup_ainsert_self]
      show fileOf (createLog (createLog st.files (st.version + 2)) (st.version + 1))
        (st.version + 1) ++ content = content
      rw [hfile₂cv]
      rfl
    · intro val
      simp only [Bool.not_eq_eq_eq_not, Bool.not_true, decide_eq_false_iff_not]
      intro hs
      simp only [List.mem_filter, decide_eq_true_eq] at hs
      omega
  refine ⟨?_, ?_, ?_, ?_, ?_, ?_⟩
  · intro k w hm
    obtain ⟨cp, hl, hr, hb, hs⟩ := hinv.agree_some k w hm
    have hcpver : cp.ver ≤ st.version := hinv.readersLe _ hr
    obtain ⟨cp', hl', hrel⟩ := (forall₂_alookup (fun _ _ h => h.1) hfa k).2 cp hl
    obtain ⟨-, hver', hb', hsl'⟩ := hrel
    refine ⟨cp', hl', ?_, ?_, ?_⟩
    · rw [hver']; exact hcv_rdr
    · show cp'.pos + cp'.len ≤ (fileOf (compactResult st out content).files cp'.ver).length
      rw [hver', hfcv]
      exact hb'
    · show sliceAt (fileOf (compactResult st out content).files cp'.ver) cp'.pos cp'.len =
        encode (.set k w)
      rw [hver', hfcv, hsl', hfile₂old _ hcpver]
      exact hs
  · intro k hm
    exact (forall₂_alookup (fun _ _ h => h.1) hfa k).1 (hinv.agree_none k hm)
  · show (out.map Prod.fst).Nodup
    rw [hkeys]
    exact hinv.nodup
  · exact hnv_rdr
  · intro v hv
    obtain ⟨hv', -⟩ := (hrdr_mem v).mp hv
    show v ≤ st.version + 2
    rcases List.mem_cons.mp hv' with h | h
    · omega
    rcases List.mem_cons.mp h with h | h
    · omega
    · have := hinv.readersLe v h
      omega
  · intro e he
    show e.1 ≤ st.version + 2
    have he₃ := (List.mem_filter.mp he).1
    rcases ainsert_mem he₃ with h | h
    · rw [hfiles₂] at h
      rcases ainsert_mem h with h' | h'
      · rw [hfiles₁] at h'
        rcases ainsert_mem h' with h'' | h''
        · have := hinv.filesLe e h''
          omega
        · rw [h'']
      · rw [h']; omega
    · rw [h]; omega

theorem setOp_spec {st : KvStore} {m : String → Option String} (hinv : Inv st m)
    (k v : String) :
    ∃ st', setOp st k v = some st' ∧ Inv st' fun q => if q = k then some v else m q := by
  obtain ⟨hinv₂, -, -⟩ := inv_setStep hinv k v
  unfold setOp
  dsimp only
  by_cases hth : (setStep st k v).stale_bytes > MAX_STALE_BYTES
  · rw [if_pos hth]
    obtain ⟨st', hco, hinv', -, -⟩ := compactOp_spec hinv₂
    exact ⟨st', hco, hinv'⟩
  · rw [if_neg hth]
    exact ⟨_, rfl, hinv₂⟩

theorem applyOp_inv {st : KvStore} {m : String → Option String} (hinv : Inv st m)
    {op : Op} {st' : KvStore} (h : applyOp st op = some st') :
    Inv st' (refApply m op) := by
  cases op with
  | set k v =>
    obtain ⟨st'', hs, hinv'⟩ := setOp_spec hinv k v
    simp only [applyOp] at h
    rw [hs] at h
    obtain rfl : st'' = st' := by injection h
    exact hinv'
  | remove k =>
    simp only [applyOp] at h
    cases hm : m k with
    | none =>
      rw [removeOp_absent (hinv.agree_none k hm)] at h
      cases h
    | some w =>
      obtain ⟨hok, hinv', -⟩ := inv_removeOp hinv hm
      have hre : removeOp st k = ((removeOp st k).1, Except.ok ()) := by
        rw [← hok]
      rw [hre] at h
      obtain rfl : (removeOp st k).1 = st' := by injection h
      exact hinv'

theorem runOps_inv : ∀ (ops : List Op) {st : KvStore} {m : String → Option String},
    Inv st m → ∀ {st' : KvStore}, runOps st ops = some st' →
      Inv st' (ops.foldl refApply m) := by
  intro ops
  induction ops with
  | nil =>
    intro st m hinv st' h
    obtain rfl : st = st' := by injection h
    exact hinv
  | cons op ops ih =>
    intro st m hinv st' h
    simp only [runOps] at h
    cases ha : applyOp st op with
    | none => rw [ha] at h; cases h
    | some st₁ =>
      rw [ha] at h
      exact ih (applyOp_inv hinv ha) h

/-! ### `open`: versions and recovery -/

theorem le_versionPeekD {l : List Nat} {v : Nat} (h : v ∈ l) : v ≤ versionPeekD l := by
  induction l with
  | nil => cases h
  | cons a rest ih =>
    rcases List.mem_cons.mp h with rfl | h'
    · exact le_max_left _ _
    · exact le_trans (ih h') (le_max_right _ _)

theorem versionPeekD_mem : ∀ {l : List Nat}, l ≠ [] → versionPeekD l ∈ l := by
  intro l
  induction l with
  | nil => intro h; cases h rfl
  | cons a rest ih =>
    intro _
    match rest with
    | [] => simp [versionPeekD]
    | b :: rest' =>
      rcases le_total a (versionPeekD (b :: rest')) with hle | hle
      · rw [show versionPeekD (a :: b :: rest') = max a (versionPeekD (b :: rest')) from rfl,
          max_eq_right hle]
        exact List.mem_cons_of_mem _ (ih (by simp))
      · rw [show versionPeekD (a :: b :: rest') = max a (versionPeekD (b :: rest')) from rfl,
          max_eq_left hle]
        exact List.mem_cons_self _ _

theorem openStore_shape {files : List (Nat × List Char)} {enum : List Nat} {st : KvStore}
    (h : openStore files enum = .ok st) :
    ∃ idx stale, loadAll files (replayOrder enum) [] 0 = .ok (idx, stale) ∧
      st = ⟨idx, (versionPeekD enum + 1) :: replayOrder enum, stale, versionPeekD enum + 1,
            createLog files (versionPeekD enum + 1)⟩ := by
  unfold openStore at h
  dsimp only at h
  cases hl : loadAll files (replayOrder enum) [] 0 with
  | error e => rw [hl] at h; cases h
  | ok p =>
    obtain ⟨idx, stale⟩ := p
    rw [hl] at h
    refine ⟨idx, stale, rfl, ?_⟩
    obtain rfl : (⟨idx, (versionPeekD enum + 1) :: replayOrder enum, stale,
        versionPeekD enum + 1, createLog files (versionPeekD enum + 1)⟩ : KvStore) = st := by
      injection h
    rfl

theorem loadAux_vers {P : Nat → Prop} :
    ∀ (fuel : Nat) (s : List Char) (ver pos : Nat)
      (idx : List (String × CommandPosition)) (stale : Nat),
      (∀ e ∈ idx, P e.2.ver) → P ver →
      ∀ {idx' stale'}, loadAux fuel ver s pos idx stale = .ok (idx', stale') →
        ∀ e ∈ idx', P e.2.ver := by
  intro fuel
  induction fuel with
  | zero =>
    intro s ver pos idx stale hidx hver idx' stale' h
    injection h with h'
    simp only [Prod.mk.injEq] at h'
    obtain ⟨rfl, rfl⟩ := h'
    exact hidx
  | succ fuel ih =>
    intro s ver pos idx stale hidx hver idx' stale' h
    by_cases hs : s = []
    · subst hs
      unfold loadAux at h
      simp only [if_pos rfl] at h
      injection h with h'
      simp only [Prod.mk.injEq] at h'
      obtain ⟨rfl, rfl⟩ := h'
      exact hidx
    · unfold loadAux at h
      rw [if_neg hs] at h
      cases hp : parseRec s with
      | none => rw [hp] at h; cases h
      | some p =>
        obtain ⟨cmd, rest⟩ := p
        rw [hp] at h
        cases cmd with
        | set k kv =>
          dsimp only at h
          refine ih rest ver _ _ _ ?_ hver h
          intro e he
          rcases ainsert_mem he with h' | h'
          · exact hidx e h'
          · rw [h']
            exact hver
        | remove k =>
          dsimp only at h
          refine ih rest ver _ _ _ ?_ hver h
          intro e he
          exact hidx e (aerase_mem he)

theorem loadAll_vers {P : Nat → Prop} :
    ∀ (vs : List Nat) (files : List (Nat × List Char))
      (idx : List (String × CommandPosition)) (stale : Nat),
      (∀ e ∈ idx, P e.2.ver) → (∀ v ∈ vs, P v) →
      ∀ {idx' stale'}, loadAll files vs idx stale = .ok (idx', stale') →
        ∀ e ∈ idx', P e.2.ver := by
  intro vs
  induction vs with
  | nil =>
    intro files idx stale hidx _ idx' stale' h e he
    injection h with h'
    simp only [Prod.mk.injEq] at h'
    obtain ⟨rfl, rfl⟩ := h'
    exact hidx e he
  | cons v vs ih =>
    intro files idx stale hidx hvs idx' stale' h
    unfold loadAll at h
    cases hf : alookup files v with
    | none => rw [hf] at h; cases h
    | some content =>
      rw [hf] at h
      dsimp only at h
      cases hla : loadLog v content idx stale with
      | error e => rw [hla] at h; cases h
      | ok p =>
        obtain ⟨idx₁, stale₁⟩ := p
        rw [hla] at h
        exact ih files idx₁ stale₁
          (loadAux_vers (content.length + 1) content v 0 idx stale hidx
            (hvs v (List.mem_cons_self _ _)) hla)
          (fun u hu => hvs u (List.mem_cons_of_mem _ hu)) h

/-! ### The reader-coverage invariant of claim C10 -/

/-- Every locator stored in the index names a version with an open reader;
strengthened with the active version's reader (which `set` relies on and
every operation maintains). -/
def ReadersInv (st : KvStore) : Prop :=
  (∀ e ∈ st.index, e.2.ver ∈ st.readers) ∧ st.version ∈ st.readers

theorem readersInv_open {files : List (Nat × List Char)} {enum : List Nat} {st : KvStore}
    (h : openStore files enum = .ok st) : ReadersInv st := by
  obtain ⟨idx, stale, hload, rfl⟩ := openStore_shape h
  constructor
  · intro e he
    exact loadAll_vers (P := fun v => v ∈ (versionPeekD enum + 1) :: replayOrder enum)
      (replayOrder enum) files [] 0 (by intro e' he'; cases he')
      (fun v hv => List.mem_cons_of_mem _ hv) hload e he
  · exact List.mem_cons_self _ _

theorem readersInv_setStep {st : KvStore} (hri : ReadersInv st) (k v : String) :
    ReadersInv (setStep st k v) := by
  obtain ⟨h1, h2⟩ := hri
  constructor
  · intro e he
    have he' : e ∈ (ainsert st.index k ⟨st.version, (activeFile st).length,
        (activeFile st).length + (encode (.set k v)).length - (activeFile st).length⟩).1 := he
    rcases ainsert_mem he' with h | h
    · exact h1 e h
    · rw [h]; exact h2
  · exact h2

theorem readersInv_compactResult (st : KvStore) (out : List (String × CommandPosition))
    (content : List Char) (hvers : ∀ e ∈ out, e.2.ver = st.version + 1) :
    ReadersInv (compactResult st out content) := by
  constructor
  · intro e he
    rw [hvers e he]
    exact (compactResult_rdr_mem st out content _).mpr ⟨List.mem_cons_self _ _, by omega⟩
  · show st.version + 2 ∈ (compactResult st out content).readers
    exact (compactResult_rdr_mem st out content _).mpr
      ⟨List.mem_cons_of_mem _ (List.mem_cons_self _ _), by omega⟩

theorem readersInv_compact {st st' : KvStore} (h : compactOp st = some st') :
    ReadersInv st' := by
  obtain ⟨out, content, hloop, rfl⟩ := compactOp_inv_shape h
  exact readersInv_compactResult st out content (compactLoop_vers _ _ _ _ _ _ _ _ hloop)

theorem readersInv_set {st : KvStore} {k v : String} {st' : KvStore} (hri : ReadersInv st)
    (h : setOp st k v = some st') : ReadersInv st' := by
  unfold setOp at h
  dsimp only at h
  split at h
  · exact readersInv_compact h
  · obtain rfl : setStep st k v = st' := by injection h
    exact readersInv_setStep hri k v

theorem readersInv_remove {st : KvStore} (hri : ReadersInv st) (k : String) :
    ReadersInv (removeOp st k).1 := by
  unfold removeOp
  cases hl : alookup st.index k with
  | none => exact hri
  | some old =>
    dsimp only
    exact ⟨fun e he => hri.1 e (aerase_mem he), hri.2⟩

theorem getOp_isSome {st : KvStore} (hri : ∀ e ∈ st.index, e.2.ver ∈ st.readers)
    (k : String) : getOp st k ≠ none := by
  unfold getOp
  cases hl : alookup st.index k with
  | none => simp
  | some cp =>
    dsimp only
    rw [if_pos (hri _ (alookup_mem hl))]
    cases decodeFull (sliceSt st cp) with
    | none => simp
    | some c => cases c <;> simp

theorem compactOp_isSome {st : KvStore} (hri : ReadersInv st) : compactOp st ≠ none := by
  have hent : ∀ e ∈ st.index, e.2.ver ∈ (st.version + 1) :: (st.version + 2) :: st.readers :=
    fun e he => List.mem_cons_of_mem _ (List.mem_cons_of_mem _ (hri.1 e he))
  obtain ⟨out, content, hloop, -, -, -⟩ := compactLoop_spec _ _ _ st.index [] hent
  rw [show ([] : List Char).length = 0 from rfl] at hloop
  rw [compactOp_eq hloop]
  simp

theorem setOp_isSome {st : KvStore} (hri : ReadersInv st) (k v : String) :
    setOp st k v ≠ none := by
  unfold setOp
  dsimp only
  split
  · exact compactOp_isSome (readersInv_setStep hri k v)
  · simp

/-! ### The claims -/

/-- Claim C1: for every sequence of successful `set`/`remove` operations on
a store opened over an initially empty directory, a subsequent `get k`
returns the value of the most recent `set k v` not followed by a
`remove k`, and `None` otherwise: the store is observably equivalent to an
in-memory map (`runRef`). -/
theorem c1_store_observably_map (ops : List Op) (st₀ st' : KvStore)
    (hopen : openStore [] [] = .ok st₀) (hrun : runOps st₀ ops = some st')
    (k : String) : getOp st' k = some (.ok (runRef ops k)) := by
  obtain rfl : freshStore = st₀ := by
    rw [openStore_nil] at hopen
    injection hopen
  exact getOp_of_inv (runOps_inv ops inv_fresh hrun) k

/-- Witness for C1 at a concrete operation sequence. -/
theorem c1_store_observably_map_witness :
    openStore [] [] = .ok freshStore ∧
      runOps freshStore [Op.set "a" "1"] =
        some ⟨[("a", ⟨1, 0, 31⟩)], [1], 0, 1, [(1, encode (.set "a" "1"))]⟩ ∧
      getOp (⟨[("a", ⟨1, 0, 31⟩)], [1], 0, 1, [(1, encode (.set "a" "1"))]⟩ : KvStore) "a" =
        some (.ok (runRef [Op.set "a" "1"] "a")) :=
  ⟨by decide, by decide,
    c1_store_observably_map [Op.set "a" "1"] freshStore _ (by decide) (by decide) "a"⟩

/-- Four close-and-reopen sessions producing logs `1.log` … `4.log` (each
holding one record), then a final reopen.  Every `openStore` receives the
directory's versions in ascending `read_dir` order. -/
def scenarioReopen : Option (KvStore × KvStore) :=
  (openStore [] []).toOption.bind fun sA =>
  (setOp sA "k" "z").bind fun sA' =>
  (openStore sA'.files [1]).toOption.bind fun sB =>
  (setOp sB "k" "a").bind fun sB' =>
  (openStore sB'.files [1, 2]).toOption.bind fun sC =>
  (setOp sC "k" "b").bind fun sC' =>
  (openStore sC'.files [1, 2, 3]).toOption.bind fun sD =>
  (setOp sD "j" "x").bind fun sD' =>
  (openStore sD'.files [1, 2, 3, 4]).toOption.bind fun sR =>
  some (sD', sR)

/-- Claim C2 fails on the code: after the four sessions of
`scenarioReopen`, the pre-close store answers `get "k" = Some "b"` but
reopening the same directory answers `get "k" = Some "a"`, because the
reopen replays versions in the order `1, 3, 2, 4` (the reversed
`BinaryHeap` backing array for `[1, 2, 3, 4]`), letting log 2's stale
record supersede log 3's newer one.  Close-and-reopen is therefore not
the identity. -/
theorem c2_reopen_not_identity :
    scenarioReopen.map (fun p => (getOp p.1 "k", getOp p.2 "k")) =
      some (some (.ok (some "b")), some (.ok (some "a"))) := by decide

/-- Claim C3 fails on the code: with log files `1.log` … `4.log` (even when
`read_dir` enumerates them in ascending order), `open` replays the
versions in the order `1, 3, 2, 4` — the reverse of the heap's backing
array `[4, 2, 3, 1]` — which is not strictly ascending, so a record in log
2 is replayed after (and supersedes) one in log 3. -/
theorem c3_replay_not_ascending :
    replayOrder [1, 2, 3, 4] = [1, 3, 2, 4] ∧
      ¬ List.Sorted (· < ·) (replayOrder [1, 2, 3, 4]) := by decide

/-- A value long enough that one superseded `Set` record exceeds
`MAX_STALE_BYTES` (its record is 120 chars). -/
def bigValue : String := String.mk (List.replicate 90 'x')

/-- Claim C4 fails on the code: `compact` never resets the stale-byte
counter.  Overwriting `bigValue` drives the counter to 120 (> 100) during
the second `set`, which triggers compaction (the version jumps from 1 to
3), yet the counter stays 120 afterwards; a further direct `compact` call
also leaves it at 120, not 0. -/
theorem c4_compact_stale_not_reset :
    (runOps freshStore [Op.set "a" bigValue, Op.set "a" "q"]).map
        (fun st => (st.version, st.stale_bytes)) = some (3, 120) ∧
      ((runOps freshStore [Op.set "a" bigValue, Op.set "a" "q"]).bind compactOp).map
        (fun st => st.stale_bytes) = some 120 ∧
      (120 : Nat) ≠ 0 := by decide

/-- The C5 run, on the refined model: open an empty directory, set one
key to `bigValue` (stale stays 0, so no auto-compaction), read it back,
call `compact()` directly, read again.  The two read answers are
returned; `none` would signal any failing or panicking step on the way. -/
def c5Run : Option (Except KvsError (Option String) × Except KvsError (Option String)) :=
  match openStoreR [] [] with
  | .error _ => none
  | .ok st₀ =>
    match setOpR st₀ "a" bigValue with
    | none => none
    | some st₁ =>
      match getOpR st₁ "a" with
      | none => none
      | some (st₂, r₁) =>
        match compactOpR st₂ with
        | none => none
        | some st₃ =>
          match getOpR st₃ "a" with
          | none => none
          | some (_, r₂) => some (r₁, r₂)

/-- Claim C5 fails on the code.  After `set("a", bigValue)` the record
occupies `[0, 120)` of 1.log; `get("a")` seeks the version-1 reader to 0
and deserializes, leaving its tracked `pos()` at 0 with the stream at
120.  The direct `compact()` then finds `reader.pos() == cmd_pos.pos`
(0 = 0), skips the seek (lib.rs:261), and `io::copy` reads from stream
offset 120 — the end of the file — copying 0 chars; the entry is
repointed at `(2, 0, 0)` and the compaction succeeds.  The
pre-compaction `get("a")` answered `Ok(Some bigValue)`; the
post-compaction `get("a")` answers a serde error (`from_reader` on an
empty record): a successful compaction changed a `get` answer. -/
theorem c5_compact_changes_get :
    c5Run = some (.ok (some bigValue), .error .serde) ∧
      (Except.ok (some bigValue) : Except KvsError (Option String)) ≠ .error .serde := by
  decide

/-- Claim C6 as stated is false on the code: removing "a" after
`set "a" "b"` increases the stale counter by 31 — the prior `Set` record's
length only — not by 31 + 22, the sum of the prior record's and the
`Remove` record's lengths that the claim demands. -/
theorem c6_remove_stale_counterexample :
    (runOps freshStore [Op.set "a" "b"]).map
        (fun st => ((removeOp st "a").2, (removeOp st "a").1.stale_bytes, st.stale_bytes)) =
      some (.ok (), 31, 0) ∧
      (encode (.set "a" "b")).length = 31 ∧
      (encode (.remove "a")).length = 22 ∧
      (31 : Nat) ≠ 0 + (31 + 22) := by decide

/-- Claim C6 amended: for a key present in the index, a successful
`remove k` adds exactly the prior `Set` record's length to the stale-byte
counter; the just-written `Remove` record's length is not added (it is
only counted as stale by the next recovery). -/
theorem c6_remove_stale_only_old (st : KvStore) (m : String → Option String)
    (hinv : Inv st m) (k v : String) (hm : m k = some v) (cp : CommandPosition)
    (hcp : alookup st.index k = some cp) :
    (removeOp st k).2 = .ok () ∧
      (removeOp st k).1.stale_bytes = st.stale_bytes + cp.len := by
  obtain ⟨hok, -, hst⟩ := inv_removeOp hinv hm
  rw [hcp] at hst
  exact ⟨hok, by simpa using hst⟩

/-- Witness for C6 (amended) at a concrete store. -/
theorem c6_remove_stale_only_old_witness :
    runOps freshStore [Op.set "a" "b"] =
        some ⟨[("a", ⟨1, 0, 31⟩)], [1], 0, 1, [(1, encode (.set "a" "b"))]⟩ ∧
      runRef [Op.set "a" "b"] "a" = some "b" ∧
      alookup [("a", (⟨1, 0, 31⟩ : CommandPosition))] "a" = some ⟨1, 0, 31⟩ ∧
      (removeOp (⟨[("a", ⟨1, 0, 31⟩)], [1], 0, 1,
        [(1, encode (.set "a" "b"))]⟩ : KvStore) "a").2 = .ok () ∧
      (removeOp (⟨[("a", ⟨1, 0, 31⟩)], [1], 0, 1,
        [(1, encode (.set "a" "b"))]⟩ : KvStore) "a").1.stale_bytes = 0 + 31 :=
  ⟨by decide, by decide, by decide,
    (c6_remove_stale_only_old _ (runRef [Op.set "a" "b"])
      (runOps_inv [Op.set "a" "b"] inv_fresh (by decide)) "a" "b" (by decide)
      ⟨1, 0, 31⟩ (by decide)).1,
    (c6_remove_stale_only_old _ (runRef [Op.set "a" "b"])
      (runOps_inv [Op.set "a" "b"] inv_fresh (by decide)) "a" "b" (by decide)
      ⟨1, 0, 31⟩ (by decide)).2⟩

/-- A store whose index entry for "x" resolves to a `Set` record carrying
the different key "y": the situation claim C7 describes as a key
mismatch. -/
def mismatchStore : KvStore :=
  ⟨[("x", ⟨1, 0, (encode (.set "y" "v")).length⟩)], [1], 0, 1, [(1, encode (.set "y" "v"))]⟩

/-- Claim C7 as stated is false on the code: the locator of "x" resolves to
a decoded `Set` record whose key is "y" ≠ "x", yet `get "x"` succeeds with
that record's value instead of failing with `UnexpectedCommand` —
`KvStore::get` destructures `Command::Set { value, .. }`, never comparing
the key. -/
theorem c7_key_mismatch_counterexample :
    decodeFull (sliceSt mismatchStore ⟨1, 0, (encode (.set "y" "v")).length⟩) =
        some (.set "y" "v") ∧
      alookup mismatchStore.index "x" = some ⟨1, 0, (encode (.set "y" "v")).length⟩ ∧
      "y" ≠ "x" ∧
      getOp mismatchStore "x" = some (.ok (some "v")) := by decide

/-- Claim C7 amended: when the locator of `k` resolves to a decoded record,
`get k` fails with `UnexpectedCommand` exactly when the record is not a
`Set` variant; a `Set` record is accepted regardless of its key, and its
value is returned. -/
theorem c7_get_ignores_key (st : KvStore) (k : String) (cp : CommandPosition)
    (hl : alookup st.index k = some cp) (hr : cp.ver ∈ st.readers) (c : Command)
    (hd : decodeFull (sliceSt st cp) = some c) :
    (∀ k' v, c = .set k' v → getOp st k = some (.ok (some v))) ∧
      (∀ k', c = .remove k' → getOp st k =
        some (.error (.unexpectedCommandType ("no existing command for key: " ++ k)))) := by
  constructor
  · intro k' v hc
    subst hc
    unfold getOp
    rw [hl]
    dsimp only
    rw [if_pos hr, hd]
  · intro k' hc
    subst hc
    unfold getOp
    rw [hl]
    dsimp only
    rw [if_pos hr, hd]

/-- Witness for C7 (amended): a mismatched `Set` record is returned, and a
`Remove` record produces `UnexpectedCommand`. -/
theorem c7_get_ignores_key_witness :
    alookup mismatchStore.index "x" = some ⟨1, 0, (encode (.set "y" "v")).length⟩ ∧
      getOp mismatchStore "x" = some (.ok (some "v")) :=
  ⟨by decide,
    (c7_get_ignores_key mismatchStore "x" ⟨1, 0, (encode (.set "y" "v")).length⟩
      (by decide) (by decide) (.set "y" "v") (by decide)).1 "y" "v" rfl⟩

/-- Claim C8: `remove` of a key absent from the index fails with
`KeyNotFound` and leaves the entire store — files (hence every file size),
index and stale counter — unchanged. -/
theorem c8_remove_absent_noop (st : KvStore) (k : String)
    (h : alookup st.index k = none) :
    removeOp st k = (st, .error (.keyNotFound ("could not find key: " ++ k))) ∧
      (removeOp st k).1.files = st.files ∧
      (removeOp st k).1.index = st.index ∧
      (removeOp st k).1.stale_bytes = st.stale_bytes := by
  have he := removeOp_absent h
  exact ⟨he, by rw [he], by rw [he], by rw [he]⟩

/-- Witness for C8. -/
theorem c8_remove_absent_noop_witness :
    alookup freshStore.index "q" = none ∧
      removeOp freshStore "q" =
        (freshStore, .error (.keyNotFound ("could not find key: " ++ "q"))) :=
  ⟨by decide, (c8_remove_absent_noop freshStore "q" (by decide)).1⟩

/-- Claim C9: a successful `open` sets the active version to
`max(existing versions) + 1` when log files exist (`versionPeekD` is shown
to be that maximum: a member of the enumeration that bounds every member)
and to 1 when the directory holds none; the active version strictly
exceeds every existing version. -/
theorem c9_open_version_max_plus_one (files : List (Nat × List Char)) (enum : List Nat)
    (st : KvStore) (h : openStore files enum = .ok st) :
    st.version = versionPeekD enum + 1 ∧
      (enum = [] → st.version = 1) ∧
      (enum ≠ [] → versionPeekD enum ∈ enum ∧ ∀ v ∈ enum, v ≤ versionPeekD enum) ∧
      (∀ v ∈ enum, v < st.version) := by
  obtain ⟨idx, stale, -, rfl⟩ := openStore_shape h
  refine ⟨rfl, ?_, ?_, ?_⟩
  · intro he
    subst he
    rfl
  · intro hne
    exact ⟨versionPeekD_mem hne, fun v hv => le_versionPeekD hv⟩
  · intro v hv
    show v < versionPeekD enum + 1
    have := le_versionPeekD hv
    omega

/-- Witness for C9 over a directory with logs 1 and 2. -/
theorem c9_open_version_max_plus_one_witness :
    openStore [(1, []), (2, [])] [1, 2] =
        .ok ⟨[], [3, 1, 2], 0, 3, [(1, []), (2, []), (3, [])]⟩ ∧
      (⟨[], [3, 1, 2], 0, 3, [(1, []), (2, []), (3, [])]⟩ : KvStore).version =
        versionPeekD [1, 2] + 1 ∧
      ∀ v ∈ [1, 2], v < (⟨[], [3, 1, 2], 0, 3, [(1, []), (2, []), (3, [])]⟩ : KvStore).version :=
  ⟨by decide,
    (c9_open_version_max_plus_one [(1, []), (2, [])] [1, 2] _ (by decide)).1,
    (c9_open_version_max_plus_one [(1, []), (2, [])] [1, 2] _ (by decide)).2.2.2⟩

/-- Claim C10: every locator stored in the index names a version present in
the readers map (`ReadersInv`, which also carries the active version's
reader — the minimal strengthening that `set` needs); the invariant holds
after `open` and is preserved by `set`, `remove` and `compact`, making the
`expect("Cannot find log reader")` branches of `get` and `compact` (and
hence of `set`) unreachable: those operations never return the
panic value `none`. -/
theorem c10_reader_invariant :
    (∀ files enum st, openStore files enum = .ok st → ReadersInv st) ∧
      (∀ st k v st', ReadersInv st → setOp st k v = some st' → ReadersInv st') ∧
      (∀ st k, ReadersInv st → ReadersInv (removeOp st k).1) ∧
      (∀ st st', compactOp st = some st' → ReadersInv st') ∧
      (∀ st k, ReadersInv st → getOp st k ≠ none) ∧
      (∀ st, ReadersInv st → compactOp st ≠ none) ∧
      (∀ st k v, ReadersInv st → setOp st k v ≠ none) :=
  ⟨fun _ _ _ h => readersInv_open h,
    fun _ _ _ _ hri h => readersInv_set hri h,
    fun _ k hri => readersInv_remove hri k,
    fun _ _ h => readersInv_compact h,
    fun _ k hri => getOp_isSome hri.1 k,
    fun _ hri => compactOp_isSome hri,
    fun _ k v hri => setOp_isSome hri k v⟩

/-- Witness for C10 at the fresh store. -/
theorem c10_reader_invariant_witness :
    openStore [] [] = .ok freshStore ∧ ReadersInv freshStore ∧
      getOp freshStore "q" ≠ none :=
  ⟨rfl, c10_reader_invariant.1 [] [] freshStore rfl,
    c10_reader_invariant.2.2.2.2.1 freshStore "q"
      (c10_reader_invariant.1 [] [] freshStore rfl)⟩

end Kvs
